import Mathlib

/-!
Shallow embedding of the knowledge-graph extraction core of
`src/project/src/extract_kg.py` (entity span detection, the three relation
extractors, sentence-level deduplication, corpus aggregation, graph
consolidation and the export decisions), together with theorems checking the
specification's claims about it.

Modelling conventions:
* Python strings are Lean `String` (a wrapper around `List Char`); the
  whitespace class of `str.strip` / regex `\s` is modelled over ASCII.
* `str.lower` is modelled per character with `Char.toLower` (basic latin).
* The script's float confidences take only the three exact values
  0.4, 0.7 and 1.0, and are only ever compared with `>` or stored; they are
  represented order-faithfully as naturals in tenths: 4, 7 and 10.
* A spaCy `Doc` is modelled as the read-only annotated sentence the script
  consumes: tokens (index, character offset, text, lemma, coarse POS,
  dependency label, head index), named-entity spans and noun-chunk spans.
* The filesystem folder read by `load_processed_texts` is a list of
  (filename, content) pairs, where content `none` models a file that raises
  on `open` (missing/unreadable) and `some lines` models its raw lines.
-/

namespace KG

/-- Whitespace test for the ASCII characters matched by Python's `str.strip`
and the regex class `\s`: space, tab, newline, vertical tab, form feed,
carriage return. -/
def isWS (c : Char) : Bool :=
  c.toNat = 32 || c.toNat = 9 || c.toNat = 10 || c.toNat = 11 || c.toNat = 12 || c.toNat = 13

/-- Replacement performed by `re.sub` at the last character of a whitespace
run: the run is rewritten to a single space. -/
def wsChar (c : Char) : Char := if isWS c then ' ' else c

/-- Remove a trailing whitespace run (the right half of Python `str.strip`). -/
def dropTrailWS : List Char → List Char
  | [] => []
  | c :: cs =>
    match dropTrailWS cs with
    | [] => if isWS c then [] else [c]
    | d :: ds => c :: d :: ds

/-- Python `str.strip`: drop the leading and the trailing whitespace run. -/
def stripChars (l : List Char) : List Char := dropTrailWS (l.dropWhile isWS)

/-- Python `re.sub(r'\s+', ' ', ·)`: every maximal whitespace run becomes one
single space. -/
def collapseWS : List Char → List Char
  | [] => []
  | [c] => [wsChar c]
  | c :: c' :: rest =>
    if isWS c && isWS c' then collapseWS (c' :: rest)
    else wsChar c :: collapseWS (c' :: rest)

/-- Python `str.lower`, per character (basic latin, as `Char.toLower`). -/
def pyLower (s : String) : String := ⟨s.data.map Char.toLower⟩

/-- Python `str.strip` on a string. -/
def pyStrip (s : String) : String := ⟨stripChars s.data⟩

/-- The source's `normalize_entity`:
`re.sub(r'\s+', ' ', span_text.strip().lower())`. -/
def normalize_entity (s : String) : String :=
  ⟨collapseWS ((stripChars s.data).map Char.toLower)⟩

theorem char_toNat_ofNat_valid (n : Nat) (hv : n.isValidChar) :
    (Char.ofNat n).toNat = n := by
  rw [Char.ofNat, dif_pos hv]
  simp [Char.ofNatAux, Char.toNat, UInt32.toNat]

theorem toLower_eq (c : Char) :
    c.toLower = if c.toNat ≥ 65 ∧ c.toNat ≤ 90 then Char.ofNat (c.toNat + 32) else c := rfl

theorem isWS_toLower (c : Char) : isWS c.toLower = isWS c := by
  rw [toLower_eq]
  by_cases h : c.toNat ≥ 65 ∧ c.toNat ≤ 90
  · rw [if_pos h]
    have ht : (Char.ofNat (c.toNat + 32)).toNat = c.toNat + 32 :=
      char_toNat_ofNat_valid _ (Or.inl (by omega))
    have h1 : isWS (Char.ofNat (c.toNat + 32)) = false := by
      unfold isWS
      rw [ht]
      simp only [Bool.or_eq_false_iff, decide_eq_false_iff_not]
      omega
    have h2 : isWS c = false := by
      unfold isWS
      simp only [Bool.or_eq_false_iff, decide_eq_false_iff_not]
      omega
    rw [h1, h2]
  · rw [if_neg h]

theorem toLower_toLower (c : Char) : c.toLower.toLower = c.toLower := by
  rw [toLower_eq c]
  by_cases h : c.toNat ≥ 65 ∧ c.toNat ≤ 90
  · rw [if_pos h]
    have ht : (Char.ofNat (c.toNat + 32)).toNat = c.toNat + 32 :=
      char_toNat_ofNat_valid _ (Or.inl (by omega))
    rw [toLower_eq, ht, if_neg (by omega)]
  · rw [if_neg h, toLower_eq, if_neg h]

theorem isWS_wsChar (c : Char) : isWS (wsChar c) = isWS c := by
  unfold wsChar
  by_cases h : isWS c
  · rw [if_pos h, h]
    decide
  · rw [if_neg h]

theorem toLower_space : (' ' : Char).toLower = ' ' := by decide

theorem collapseWS_ne_nil (l : List Char) (h : l ≠ []) : collapseWS l ≠ [] := by
  match l with
  | [c] => simp [collapseWS]
  | c :: c' :: rest =>
    unfold collapseWS
    by_cases hw : isWS c && isWS c'
    · rw [if_pos hw]
      exact collapseWS_ne_nil (c' :: rest) (by simp)
    · rw [if_neg hw]
      simp

theorem collapseWS_head_ws (l : List Char) :
    (collapseWS l).head?.map isWS = l.head?.map isWS := by
  match l with
  | [] => rfl
  | [c] => simp [collapseWS, isWS_wsChar]
  | c :: c' :: rest =>
    unfold collapseWS
    by_cases hw : isWS c && isWS c'
    · rw [if_pos hw]
      have ih := collapseWS_head_ws (c' :: rest)
      simp only [List.head?_cons, Option.map_some'] at ih ⊢
      rw [ih]
      simp only [Bool.and_eq_true] at hw
      rw [hw.1, hw.2]
    · rw [if_neg hw]
      simp [isWS_wsChar]

theorem collapseWS_getLast_ws (l : List Char) :
    (collapseWS l).getLast?.map isWS = l.getLast?.map isWS := by
  match l with
  | [] => rfl
  | [c] => simp [collapseWS, isWS_wsChar]
  | c :: c' :: rest =>
    unfold collapseWS
    have ih := collapseWS_getLast_ws (c' :: rest)
    by_cases hw : isWS c && isWS c'
    · rw [if_pos hw, List.getLast?_cons_cons]
      exact ih
    · rw [if_neg hw, List.getLast?_cons_cons]
      rw [← ih]
      have hne : collapseWS (c' :: rest) ≠ [] := collapseWS_ne_nil _ (by simp)
      match hcc : collapseWS (c' :: rest) with
      | [] => exact absurd hcc hne
      | d :: ds => rw [List.getLast?_cons_cons]

theorem mem_collapseWS (l : List Char) (c : Char) (h : c ∈ collapseWS l) :
    c = ' ' ∨ (c ∈ l ∧ isWS c = false) := by
  match l with
  | [] => simp [collapseWS] at h
  | [d] =>
    simp only [collapseWS, List.mem_singleton] at h
    subst h
    unfold wsChar
    by_cases hw : isWS d
    · rw [if_pos hw]
      left
      rfl
    · rw [if_neg hw]
      right
      exact ⟨List.mem_singleton_self d, by simpa using hw⟩
  | d :: d' :: rest =>
    unfold collapseWS at h
    by_cases hw : isWS d && isWS d'
    · rw [if_pos hw] at h
      rcases mem_collapseWS (d' :: rest) c h with h1 | ⟨h2, h3⟩
      · exact Or.inl h1
      · exact Or.inr ⟨List.mem_cons_of_mem d h2, h3⟩
    · rw [if_neg hw] at h
      rcases List.mem_cons.mp h with h1 | h1
      · subst h1
        unfold wsChar
        by_cases hwd : isWS d
        · rw [if_pos hwd]
          left
          rfl
        · rw [if_neg hwd]
          right
          exact ⟨List.mem_cons_self d _, by simpa using hwd⟩
      · rcases mem_collapseWS (d' :: rest) c h1 with h2 | ⟨h3, h4⟩
        · exact Or.inl h2
        · exact Or.inr ⟨List.mem_cons_of_mem d h3, h4⟩

/-- True when no two adjacent characters are both whitespace. -/
def noDoubleWS : List Char → Bool
  | [] => true
  | [_] => true
  | c :: c' :: rest => (!(isWS c && isWS c')) && noDoubleWS (c' :: rest)

theorem noDoubleWS_collapseWS (l : List Char) : noDoubleWS (collapseWS l) = true := by
  match l with
  | [] => rfl
  | [c] => rfl
  | c :: c' :: rest =>
    unfold collapseWS
    have ih := noDoubleWS_collapseWS (c' :: rest)
    by_cases hw : isWS c && isWS c'
    · rw [if_pos hw]
      exact ih
    · rw [if_neg hw]
      have hne : collapseWS (c' :: rest) ≠ [] := collapseWS_ne_nil _ (by simp)
      match hcc : collapseWS (c' :: rest) with
      | [] => exact absurd hcc hne
      | d :: ds =>
        rw [hcc] at ih
        have hhead := collapseWS_head_ws (c' :: rest)
        rw [hcc] at hhead
        simp only [List.head?_cons, Option.map_some', Option.some_inj] at hhead
        unfold noDoubleWS
        rw [ih, isWS_wsChar, hhead]
        simp only [Bool.and_eq_true, Bool.and_true, Bool.not_eq_eq_eq_not, Bool.not_true,
          Bool.and_eq_false_iff]
        by_cases hc : isWS c
        · by_cases hc' : isWS c'
          · exact absurd (by rw [hc, hc']; rfl) hw
          · right
            simpa using hc'
        · left
          simpa using hc

theorem collapseWS_fixed (l : List Char) (h1 : noDoubleWS l = true)
    (h2 : ∀ c ∈ l, isWS c = true → c = ' ') : collapseWS l = l := by
  match l with
  | [] => rfl
  | [c] =>
    unfold collapseWS wsChar
    by_cases hw : isWS c
    · rw [if_pos hw, h2 c (List.mem_singleton_self c) hw]
    · rw [if_neg hw]
  | c :: c' :: rest =>
    unfold collapseWS
    unfold noDoubleWS at h1
    simp only [Bool.and_eq_true, Bool.not_eq_eq_eq_not, Bool.not_true] at h1
    rw [if_neg (by rw [h1.1]; simp)]
    have ihtail : collapseWS (c' :: rest) = c' :: rest :=
      collapseWS_fixed (c' :: rest) h1.2 (fun x hx hw => h2 x (List.mem_cons_of_mem c hx) hw)
    rw [ihtail]
    unfold wsChar
    by_cases hw : isWS c
    · rw [if_pos hw, h2 c (List.mem_cons_self c _) hw]
    · rw [if_neg hw]

theorem dropTrailWS_getLast (l : List Char) (c : Char)
    (h : (dropTrailWS l).getLast? = some c) : isWS c = false := by
  match l with
  | [] => simp [dropTrailWS] at h
  | d :: ds =>
    unfold dropTrailWS at h
    match hds : dropTrailWS ds with
    | [] =>
      rw [hds] at h
      by_cases hw : isWS d
      · rw [if_pos hw] at h
        simp at h
      · rw [if_neg hw] at h
        simp only [List.getLast?_singleton, Option.some_inj] at h
        subst h
        simpa using hw
    | e :: es =>
      rw [hds, List.getLast?_cons_cons] at h
      rw [← hds] at h
      exact dropTrailWS_getLast ds c h

theorem dropTrailWS_head (l : List Char) (c : Char)
    (h : (dropTrailWS l).head? = some c) : l.head? = some c := by
  match l with
  | [] => simp [dropTrailWS] at h
  | d :: ds =>
    unfold dropTrailWS at h
    match hds : dropTrailWS ds with
    | [] =>
      rw [hds] at h
      by_cases hw : isWS d
      · rw [if_pos hw] at h
        simp at h
      · rw [if_neg hw] at h
        simpa using h
    | e :: es =>
      rw [hds] at h
      simpa using h

theorem stripChars_head (l : List Char) (c : Char)
    (h : (stripChars l).head? = some c) : isWS c = false := by
  unfold stripChars at h
  have h2 := dropTrailWS_head _ _ h
  have h3 := List.head?_dropWhile_not isWS l
  rw [h2] at h3
  simpa using h3

theorem stripChars_getLast (l : List Char) (c : Char)
    (h : (stripChars l).getLast? = some c) : isWS c = false :=
  dropTrailWS_getLast _ _ h

theorem dropWhile_eq_self_of_head (p : Char → Bool) (l : List Char) (c : Char)
    (hh : l.head? = some c) (hp : p c = false) : l.dropWhile p = l := by
  match l with
  | [] => rfl
  | d :: ds =>
    simp only [List.head?_cons, Option.some_inj] at hh
    subst hh
    simp [List.dropWhile, hp]

theorem dropTrailWS_eq_self (l : List Char)
    (h : ∀ c, l.getLast? = some c → isWS c = false) : dropTrailWS l = l := by
  match l with
  | [] => rfl
  | d :: ds =>
    unfold dropTrailWS
    match hds : ds with
    | [] =>
      simp only [dropTrailWS]
      rw [if_neg (by simpa using h d (by simp))]
    | e :: es =>
      have ih : dropTrailWS (e :: es) = e :: es := by
        apply dropTrailWS_eq_self
        intro c hc
        apply h
        rw [List.getLast?_cons_cons]
        exact hc
      rw [ih]

theorem stripChars_eq_self (l : List Char)
    (hh : ∀ c, l.head? = some c → isWS c = false)
    (hl : ∀ c, l.getLast? = some c → isWS c = false) : stripChars l = l := by
  unfold stripChars
  have hd : l.dropWhile isWS = l := by
    match l with
    | [] => rfl
    | d :: ds => exact dropWhile_eq_self_of_head isWS _ d (by simp) (hh d (by simp))
  rw [hd]
  exact dropTrailWS_eq_self l hl

theorem map_eq_self_of_mem {α : Type} (f : α → α) (l : List α)
    (h : ∀ x ∈ l, f x = x) : l.map f = l := by
  induction l with
  | nil => rfl
  | cons a as ih =>
    simp only [List.map_cons, h a (List.mem_cons_self a as)]
    rw [ih (fun x hx => h x (List.mem_cons_of_mem a hx))]

/-- The output of `normalize_entity` is a fixed point of `normalize_entity`:
it is stripped, lowercased, and free of multi-character whitespace runs. -/
theorem normalize_entity_idem (s : String) :
    normalize_entity (normalize_entity s) = normalize_entity s := by
  unfold normalize_entity
  have hN : (String.mk (collapseWS ((stripChars s.data).map Char.toLower))).data
      = collapseWS ((stripChars s.data).map Char.toLower) := rfl
  rw [hN]
  set N := collapseWS ((stripChars s.data).map Char.toLower) with hNdef
  have hstrip : stripChars N = N := by
    apply stripChars_eq_self
    · intro c hc
      have h1 := collapseWS_head_ws ((stripChars s.data).map Char.toLower)
      rw [← hNdef, hc] at h1
      match hM : ((stripChars s.data).map Char.toLower).head? with
      | none =>
        rw [hM] at h1
        simp at h1
      | some d =>
        rw [hM] at h1
        simp only [Option.map_some', Option.some_inj] at h1
        rw [List.head?_map] at hM
        match hS : (stripChars s.data).head? with
        | none =>
          rw [hS] at hM
          simp at hM
        | some e =>
          rw [hS] at hM
          simp only [Option.map_some', Option.some_inj] at hM
          rw [h1, ← hM, isWS_toLower]
          exact stripChars_head _ _ hS
    · intro c hc
      have h1 := collapseWS_getLast_ws ((stripChars s.data).map Char.toLower)
      rw [← hNdef, hc] at h1
      match hM : ((stripChars s.data).map Char.toLower).getLast? with
      | none =>
        rw [hM] at h1
        simp at h1
      | some d =>
        rw [hM] at h1
        simp only [Option.map_some', Option.some_inj] at h1
        rw [List.getLast?_map] at hM
        match hS : (stripChars s.data).getLast? with
        | none =>
          rw [hS] at hM
          simp at hM
        | some e =>
          rw [hS] at hM
          simp only [Option.map_some', Option.some_inj] at hM
          rw [h1, ← hM, isWS_toLower]
          exact stripChars_getLast _ _ hS
  rw [hstrip]
  have hlower : N.map Char.toLower = N := by
    apply map_eq_self_of_mem
    intro c hc
    rcases mem_collapseWS _ c hc with h1 | ⟨h2, _⟩
    · rw [h1]
      exact toLower_space
    · rcases List.mem_map.mp h2 with ⟨e, _, he⟩
      rw [← he]
      exact toLower_toLower e
  rw [hlower]
  have hfix : collapseWS N = N := by
    apply collapseWS_fixed
    · exact noDoubleWS_collapseWS _
    · intro c hc hw
      rcases mem_collapseWS _ c hc with h1 | ⟨_, h2⟩
      · exact h1
      · rw [hw] at h2
        exact absurd h2 (by simp)
  rw [hfix]


/-- Absence of whitespace runs in the output, restated for reuse. -/
theorem normalize_entity_empty : normalize_entity "" = "" := rfl

/-- A spaCy token as consumed by the script: `token.i`, `token.idx`,
`token.text`, `token.lemma_`, `token.pos_`, `token.dep_` and the index
`token.head.i` of its syntactic head. -/
structure Token where
  i : Nat
  idx : Nat
  text : String
  lemma_ : String
  pos : String
  dep : String
  head : Nat
deriving DecidableEq

/-- A character span (`ent.text`, `ent.start_char`, `ent.end_char`) as given
by `doc.ents` or `doc.noun_chunks`. -/
structure RawSpan where
  text : String
  start_char : Nat
  end_char : Nat
deriving DecidableEq

/-- The read-only annotated sentence: a spaCy `Doc` restricted to the fields
the script reads. -/
structure Doc where
  tokens : List Token
  ents : List RawSpan
  noun_chunks : List RawSpan
  text : String
deriving DecidableEq

/-- Detection method tag used by `extract_entities_from_sentence`. -/
inductive Method where
  | NER : Method
  | NOUN_CHUNK : Method
deriving DecidableEq

/-- One collected entity span `(text, start_idx, end_idx, method)`. -/
structure EntitySpan where
  text : String
  start_char : Nat
  end_char : Nat
  method : Method
deriving DecidableEq

/-- One extracted triple `(subject, relation, object, confidence)`;
confidences are in tenths (1.0 is 10, 0.7 is 7, 0.4 is 4). -/
structure Triple where
  subj : String
  rel : String
  obj : String
  conf : Nat
deriving DecidableEq

/-- The syntactic children of a token: every token of the document whose head
index is this token (spaCy never lists a token among its own children, so the
root's self-loop head is excluded). -/
def childrenOf (doc : Doc) (tok : Token) : List Token :=
  doc.tokens.filter (fun c => c.head == tok.i && !(c.i == tok.i))

/-- The head token `token.head`: the document token carrying the head index
(the token itself when the index resolves to nothing, which cannot happen on
a well-formed document since the root is its own head). -/
def headTok (doc : Doc) (tok : Token) : Token :=
  (doc.tokens.find? (fun t => t.i == tok.head)).getD tok

/-- The source's `extract_entities_from_sentence`: all named-entity spans
(normalized, tagged NER) in order, then every noun chunk whose normalized
text does not already occur in the list collected so far (tagged
NOUN_CHUNK). -/
def extract_entities_from_sentence (doc : Doc) : List EntitySpan :=
  let ner := doc.ents.map
    (fun e => EntitySpan.mk (normalize_entity e.text) e.start_char e.end_char Method.NER)
  doc.noun_chunks.foldl
    (fun ents nc =>
      let txt := normalize_entity nc.text
      if ents.any (fun e => txt == e.text) then ents
      else ents ++ [EntitySpan.mk txt nc.start_char nc.end_char Method.NOUN_CHUNK])
    ner

/-- Final content of the source's `token_idx_to_ent` dictionary at a token:
the insertion loop runs over the entity spans in order and, for every token
whose character range lies inside the span
(`token.idx >= start_char` and `token.idx + len(token.text) <= end_char`),
overwrites the entry, so the dictionary holds the last covering span; a token
covered by no span is absent and `dict.get` falls back to the raw token
text. -/
def resolveToken (ents : List EntitySpan) (tok : Token) : String :=
  match (ents.filter
      (fun e => tok.idx ≥ e.start_char && tok.idx + tok.text.length ≤ e.end_char)).getLast? with
  | some e => e.text
  | none => tok.text

/-- The source's `extract_svo_triples`: for every VERB token, the loop over
its children stores the resolved text of each subject child into `subj` and
of each object child into `dobj` (later children overwrite earlier ones);
one triple is appended when both survive Python truthiness (not None, not the
empty string). -/
def extract_svo_triples (doc : Doc) (ents_in_sent : List EntitySpan) : List Triple :=
  doc.tokens.flatMap (fun token =>
    if token.pos == "VERB" then
      let subj := (childrenOf doc token).foldl
        (fun acc child =>
          if child.dep == "nsubj" || child.dep == "nsubjpass"
          then some (resolveToken ents_in_sent child) else acc) none
      let dobj := (childrenOf doc token).foldl
        (fun acc child =>
          if child.dep == "dobj" || child.dep == "obj"
          then some (resolveToken ents_in_sent child) else acc) none
      match subj, dobj with
      | some s, some d =>
        if s ≠ "" ∧ d ≠ "" then
          [Triple.mk (normalize_entity s) (pyLower token.lemma_) (normalize_entity d) 10]
        else []
      | _, _ => []
    else [])

/-- The source's `extract_prep_triples`: for every token with dependency
`prep`, the loop over its children stores the normalized resolved text of
each `pobj` child (later overwrite earlier); the head side resolves
`token.head` through the entity map; a triple is appended when both texts
survive Python truthiness. -/
def extract_prep_triples (doc : Doc) (ents_in_sent : List EntitySpan) : List Triple :=
  doc.tokens.flatMap (fun token =>
    if token.dep == "prep" then
      let pobj := (childrenOf doc token).foldl
        (fun acc child =>
          if child.dep == "pobj"
          then some (normalize_entity (resolveToken ents_in_sent child)) else acc) none
      let head_ent := resolveToken ents_in_sent (headTok doc token)
      match pobj with
      | some p =>
        if head_ent ≠ "" ∧ p ≠ "" then
          [Triple.mk (normalize_entity head_ent) (pyLower token.text) p 7]
        else []
      | none => []
    else [])

/-- The source's `extract_cooccurrence_triples` (its unused first argument,
the raw sentence, is dropped): the double loop `for i in range(n)`,
`for j in range(i+1, n)` emits `(ent_texts[i], "related_to", ent_texts[j],
0.4)` whenever the two normalized texts differ. -/
def extract_cooccurrence_triples (ents_in_sent : List EntitySpan) : List Triple :=
  let ent_texts := ents_in_sent.map (fun e => normalize_entity e.text)
  (List.range ent_texts.length).flatMap (fun i =>
    ((List.range ent_texts.length).filter (fun j => i < j)).flatMap (fun j =>
      let s := ent_texts.getD i ""
      let o := ent_texts.getD j ""
      if s ≠ o then [Triple.mk s "related_to" o 4] else []))

/-- The source's `unique_triple_key`: the f-string `subject|relation|object`. -/
def unique_triple_key (t : Triple) : String :=
  t.subj ++ "|" ++ t.rel ++ "|" ++ t.obj


theorem find?_append_eq {β : Type} (p : β → Bool) (l1 l2 : List β) :
    (l1 ++ l2).find? p = match l1.find? p with
      | some x => some x
      | none => l2.find? p := by
  induction l1 with
  | nil => rfl
  | cons x xs ih =>
    by_cases hx : p x
    · simp [List.find?, hx]
    · simp only [List.cons_append, List.find?, hx]
      exact ih

section Upsert

variable {K V α : Type} [DecidableEq K]
variable (key : α → K) (val : α → V) (cf : V → Nat)

/-- Conditional upsert shared by the sentence-level deduplication dictionary
(`dedup[key] = t` guarded by `t[3] > dedup[key][3]`) and the graph edge merge
(`G[s][o]` attribute overwrite guarded by `conf > prev_conf`): on a fresh key
append a new entry at the end, on an existing key overwrite the stored value
in place exactly when the incoming confidence is strictly greater. -/
def upsert (m : List (K × V)) (t : α) : List (K × V) :=
  match m.find? (fun e => decide (e.1 = key t)) with
  | none => m ++ [(key t, val t)]
  | some e =>
    if cf (val t) > cf e.2 then
      m.map (fun e2 => if e2.1 = key t then (e2.1, val t) else e2)
    else m

/-- Folding the upsert over a whole run of inputs, starting from the empty
dictionary (insertion-ordered, as a Python dict / networkx adjacency). -/
def buildMap (ts : List α) : List (K × V) := ts.foldl (upsert key val cf) []

/-- The per-key shadow of one upsert step: how the entry stored under a fixed
key `k` evolves when record `t` arrives. -/
def optStep (k : K) (acc : Option (K × V)) (t : α) : Option (K × V) :=
  if key t = k then
    match acc with
    | none => some (k, val t)
    | some e => if cf (val t) > cf e.2 then some (k, val t) else acc
  else acc

theorem fst_upsert_entry (t : α) (e2 : K × V) :
    (if e2.1 = key t then (e2.1, val t) else e2).1 = e2.1 := by
  by_cases h2 : e2.1 = key t
  · rw [if_pos h2]
  · rw [if_neg h2]

theorem upsert_of_none (m : List (K × V)) (t : α)
    (hf : m.find? (fun e => decide (e.1 = key t)) = none) :
    upsert key val cf m t = m ++ [(key t, val t)] := by
  unfold upsert
  rw [hf]

theorem upsert_of_some_gt (m : List (K × V)) (t : α) (e : K × V)
    (hf : m.find? (fun e => decide (e.1 = key t)) = some e)
    (hc : cf (val t) > cf e.2) :
    upsert key val cf m t = m.map (fun e2 => if e2.1 = key t then (e2.1, val t) else e2) := by
  unfold upsert
  rw [hf]
  exact if_pos hc

theorem upsert_of_some_le (m : List (K × V)) (t : α) (e : K × V)
    (hf : m.find? (fun e => decide (e.1 = key t)) = some e)
    (hc : ¬ cf (val t) > cf e.2) :
    upsert key val cf m t = m := by
  unfold upsert
  rw [hf]
  exact if_neg hc

theorem optStep_pos_none (k : K) (t : α) (hk : key t = k) :
    optStep key val cf k none t = some (k, val t) := by
  unfold optStep
  rw [if_pos hk]

theorem optStep_pos_some (k : K) (t : α) (e : K × V) (hk : key t = k) :
    optStep key val cf k (some e) t
      = (if cf (val t) > cf e.2 then some (k, val t) else some e) := by
  unfold optStep
  rw [if_pos hk]

theorem optStep_neg (k : K) (t : α) (acc : Option (K × V)) (hk : ¬ key t = k) :
    optStep key val cf k acc t = acc := by
  unfold optStep
  rw [if_neg hk]

theorem find?_upsert (m : List (K × V)) (t : α) (k : K) :
    (upsert key val cf m t).find? (fun e => decide (e.1 = k))
      = optStep key val cf k (m.find? (fun e => decide (e.1 = k))) t := by
  by_cases hk : key t = k
  · subst hk
    cases hf : m.find? (fun e => decide (e.1 = key t)) with
    | none =>
      rw [upsert_of_none key val cf m t hf, find?_append_eq, hf,
        optStep_pos_none key val cf _ t rfl]
      simp [List.find?]
    | some e =>
      rw [optStep_pos_some key val cf _ t e rfl]
      by_cases hc : cf (val t) > cf e.2
      · rw [upsert_of_some_gt key val cf m t e hf hc, if_pos hc]
        rw [List.find?_map]
        have hpf : ((fun e => decide (e.1 = key t)) ∘
            (fun e2 : K × V => if e2.1 = key t then (e2.1, val t) else e2))
            = (fun e : K × V => decide (e.1 = key t)) := by
          funext e2
          simp only [Function.comp_apply, fst_upsert_entry key val]
        rw [hpf, hf]
        have hpe := List.find?_some hf
        have he : e.1 = key t := by simpa using hpe
        simp only [Option.map_some']
        rw [if_pos he, he]
      · rw [upsert_of_some_le key val cf m t e hf hc, if_neg hc]
        exact hf
  · rw [optStep_neg key val cf k t _ hk]
    cases hf : m.find? (fun e => decide (e.1 = key t)) with
    | none =>
      rw [upsert_of_none key val cf m t hf, find?_append_eq]
      cases hg : m.find? (fun e => decide (e.1 = k)) with
      | some x => rfl
      | none =>
        simp only [List.find?]
        rw [decide_eq_false hk]
    | some e =>
      by_cases hc : cf (val t) > cf e.2
      · rw [upsert_of_some_gt key val cf m t e hf hc]
        rw [List.find?_map]
        have hpf : ((fun e => decide (e.1 = k)) ∘
            (fun e2 : K × V => if e2.1 = key t then (e2.1, val t) else e2))
            = (fun e : K × V => decide (e.1 = k)) := by
          funext e2
          simp only [Function.comp_apply, fst_upsert_entry key val]
        rw [hpf]
        cases hg : m.find? (fun e => decide (e.1 = k)) with
        | none => rfl
        | some e2 =>
          have hpe2 := List.find?_some hg
          have he2 : e2.1 = k := by simpa using hpe2
          have hne : ¬ (e2.1 = key t) := by
            rw [he2]
            intro h
            exact hk h.symm
          simp only [Option.map_some']
          rw [if_neg hne]
      · rw [upsert_of_some_le key val cf m t e hf hc]

theorem find?_foldl_upsert (ts : List α) (k : K) :
    ∀ m : List (K × V),
      (ts.foldl (upsert key val cf) m).find? (fun e => decide (e.1 = k))
        = ts.foldl (optStep key val cf k) (m.find? (fun e => decide (e.1 = k))) := by
  induction ts with
  | nil => intro m; rfl
  | cons t ts ih =>
    intro m
    simp only [List.foldl_cons]
    rw [ih (upsert key val cf m t), find?_upsert]

/-- Left fold computing, over a list of stored values, the first value whose
confidence never gets strictly beaten by a later one. -/
def bestAux (u : V) : List V → V
  | [] => u
  | v :: vs => bestAux (if cf v > cf u then v else u) vs

/-- The surviving value for one key after the whole strict-greater upsert
run: none when no contribution arrived, otherwise the first contribution
achieving the maximum confidence. -/
def bestOf : List V → Option V
  | [] => none
  | v :: vs => some (bestAux cf v vs)

theorem filter_cons_pos (p : α → Bool) (t : α) (ts : List α) (h : p t = true) :
    (t :: ts).filter p = t :: ts.filter p := by
  simp [List.filter_cons, h]

theorem filter_cons_neg (p : α → Bool) (t : α) (ts : List α) (h : p t = false) :
    (t :: ts).filter p = ts.filter p := by
  simp [List.filter_cons, h]

theorem foldl_optStep_some (ts : List α) (k : K) :
    ∀ u : V,
      ts.foldl (optStep key val cf k) (some (k, u))
        = some (k, bestAux cf u ((ts.filter (fun t => decide (key t = k))).map val)) := by
  induction ts with
  | nil => intro u; rfl
  | cons t ts ih =>
    intro u
    simp only [List.foldl_cons]
    by_cases hk : key t = k
    · rw [optStep_pos_some key val cf k t _ hk,
        filter_cons_pos _ t ts (decide_eq_true hk), List.map_cons]
      by_cases hc : cf (val t) > cf u
      · rw [if_pos hc, ih (val t)]
        simp only [bestAux, if_pos hc]
      · rw [if_neg hc, ih u]
        simp only [bestAux, if_neg hc]
    · rw [optStep_neg key val cf k t _ hk,
        filter_cons_neg _ t ts (decide_eq_false hk)]
      exact ih u

theorem foldl_optStep_none (ts : List α) (k : K) :
    ts.foldl (optStep key val cf k) none
      = (bestOf cf ((ts.filter (fun t => decide (key t = k))).map val)).map
          (fun v => (k, v)) := by
  induction ts with
  | nil => rfl
  | cons t ts ih =>
    simp only [List.foldl_cons]
    by_cases hk : key t = k
    · rw [optStep_pos_none key val cf k t hk,
        filter_cons_pos _ t ts (decide_eq_true hk), List.map_cons,
        foldl_optStep_some key val cf ts k (val t)]
      simp only [bestOf, Option.map_some']
    · rw [optStep_neg key val cf k t _ hk,
        filter_cons_neg _ t ts (decide_eq_false hk)]
      exact ih


theorem find?_buildMap (ts : List α) (k : K) :
    (buildMap key val cf ts).find? (fun e => decide (e.1 = k))
      = (bestOf cf ((ts.filter (fun t => decide (key t = k))).map val)).map
          (fun v => (k, v)) := by
  unfold buildMap
  rw [find?_foldl_upsert]
  simp only [List.find?]
  exact foldl_optStep_none key val cf ts k

end Upsert


section UpsertFacts

variable {K V α : Type} [DecidableEq K]
variable (key : α → K) (val : α → V) (cf : V → Nat)

theorem bestAux_spec (l : List V) : ∀ u : V,
    (bestAux cf u l = u ∨ bestAux cf u l ∈ l) ∧
    cf u ≤ cf (bestAux cf u l) ∧
    (∀ v ∈ l, cf v ≤ cf (bestAux cf u l)) ∧
    (u :: l).find? (fun w => decide (cf (bestAux cf u l) ≤ cf w))
      = some (bestAux cf u l) := by
  induction l with
  | nil =>
    intro u
    refine ⟨Or.inl rfl, le_refl _, by simp, ?_⟩
    simp [bestAux, List.find?]
  | cons v vs ih =>
    intro u
    have hstep : bestAux cf u (v :: vs) = bestAux cf (if cf v > cf u then v else u) vs := rfl
    by_cases hc : cf v > cf u
    · rw [hstep, if_pos hc]
      obtain ⟨hmem, hub, hall, hfind⟩ := ih v
      refine ⟨?_, ?_, ?_, ?_⟩
      · rcases hmem with h | h
        · refine Or.inr ?_
          rw [h]
          exact List.mem_cons_self v vs
        · exact Or.inr (List.mem_cons_of_mem v h)
      · exact le_trans (le_of_lt hc) hub
      · intro w hw
        rcases List.mem_cons.mp hw with h | h
        · exact h ▸ hub
        · exact hall w h
      · have hu : cf u < cf (bestAux cf v vs) := lt_of_lt_of_le hc hub
        rw [List.find?_cons_of_neg _ (by simp only [decide_eq_true_eq]; omega)]
        exact hfind
    · rw [hstep, if_neg hc]
      obtain ⟨hmem, hub, hall, hfind⟩ := ih u
      have hvu : cf v ≤ cf u := le_of_not_lt hc
      refine ⟨?_, hub, ?_, ?_⟩
      · rcases hmem with h | h
        · exact Or.inl h
        · exact Or.inr (List.mem_cons_of_mem v h)
      · intro w hw
        rcases List.mem_cons.mp hw with h | h
        · exact h ▸ le_trans hvu hub
        · exact hall w h
      · by_cases hpu : cf (bestAux cf u vs) ≤ cf u
        · have hfu : (u :: vs).find? (fun w => decide (cf (bestAux cf u vs) ≤ cf w))
              = some u :=
            List.find?_cons_of_pos _ (by simpa using hpu)
          have hBu : u = bestAux cf u vs := by
            have := hfu.symm.trans hfind
            simpa using this
          rw [List.find?_cons_of_pos _ (by simpa using hpu)]
          rw [← hBu]
        · have hult : cf u < cf (bestAux cf u vs) := lt_of_not_le hpu
          rw [List.find?_cons_of_neg _ (by simp only [decide_eq_true_eq]; omega)]
          rw [List.find?_cons_of_neg _ (by simp only [decide_eq_true_eq]; omega)]
          have hfu : (u :: vs).find? (fun w => decide (cf (bestAux cf u vs) ≤ cf w))
              = vs.find? (fun w => decide (cf (bestAux cf u vs) ≤ cf w)) :=
            List.find?_cons_of_neg _ (by simp only [decide_eq_true_eq]; omega)
          rw [hfu] at hfind
          exact hfind

theorem bestOf_spec (l : List V) (v : V) (h : bestOf cf l = some v) :
    v ∈ l ∧ (∀ w ∈ l, cf w ≤ cf v) ∧
    l.find? (fun w => decide (cf v ≤ cf w)) = some v := by
  match l with
  | [] => simp [bestOf] at h
  | x :: xs =>
    have hv : bestAux cf x xs = v := by
      simpa [bestOf] using h
    obtain ⟨hmem, hub, hall, hfind⟩ := bestAux_spec cf xs x
    rw [hv] at hmem hub hall hfind
    refine ⟨?_, ?_, hfind⟩
    · rcases hmem with h1 | h1
      · rw [h1]
        exact List.mem_cons_self x xs
      · exact List.mem_cons_of_mem x h1
    · intro w hw
      rcases List.mem_cons.mp hw with h1 | h1
      · exact h1 ▸ hub
      · exact hall w h1

theorem bestOf_none_iff (l : List V) : bestOf cf l = none ↔ l = [] := by
  cases l <;> simp [bestOf]

theorem mem_upsert (m : List (K × V)) (t : α) (e : K × V)
    (h : e ∈ upsert key val cf m t) : e ∈ m ∨ e = (key t, val t) := by
  cases hf : m.find? (fun e => decide (e.1 = key t)) with
  | none =>
    rw [upsert_of_none key val cf m t hf] at h
    rcases List.mem_append.mp h with h1 | h1
    · exact Or.inl h1
    · right
      simpa using h1
  | some e0 =>
    by_cases hc : cf (val t) > cf e0.2
    · rw [upsert_of_some_gt key val cf m t e0 hf hc] at h
      rcases List.mem_map.mp h with ⟨e2, he2, hfe⟩
      by_cases h2 : e2.1 = key t
      · rw [if_pos h2] at hfe
        right
        rw [← hfe, h2]
      · rw [if_neg h2] at hfe
        left
        rw [← hfe]
        exact he2
    · rw [upsert_of_some_le key val cf m t e0 hf hc] at h
      exact Or.inl h

theorem mem_foldl_upsert (ts : List α) :
    ∀ (m : List (K × V)) (e : K × V), e ∈ ts.foldl (upsert key val cf) m →
      e ∈ m ∨ ∃ t ∈ ts, e = (key t, val t) := by
  induction ts with
  | nil =>
    intro m e h
    exact Or.inl h
  | cons t ts ih =>
    intro m e h
    simp only [List.foldl_cons] at h
    rcases ih (upsert key val cf m t) e h with h1 | ⟨t2, ht2, he⟩
    · rcases mem_upsert key val cf m t e h1 with h2 | h2
      · exact Or.inl h2
      · exact Or.inr ⟨t, List.mem_cons_self t ts, h2⟩
    · exact Or.inr ⟨t2, List.mem_cons_of_mem t ht2, he⟩

theorem mem_buildMap (ts : List α) (e : K × V) (h : e ∈ buildMap key val cf ts) :
    ∃ t ∈ ts, e = (key t, val t) := by
  rcases mem_foldl_upsert key val cf ts [] e h with h1 | h1
  · simp at h1
  · exact h1

theorem nodup_keys_upsert (m : List (K × V)) (t : α)
    (h : (m.map Prod.fst).Nodup) : ((upsert key val cf m t).map Prod.fst).Nodup := by
  cases hf : m.find? (fun e => decide (e.1 = key t)) with
  | none =>
    rw [upsert_of_none key val cf m t hf, List.map_append]
    apply List.Nodup.append h (by simp)
    intro a ha hb
    rcases List.mem_map.mp ha with ⟨x, hx, hax⟩
    have := List.find?_eq_none.mp hf x hx
    simp only [decide_eq_true_eq] at this
    simp only [List.map_cons, List.map_nil, List.mem_singleton] at hb
    exact this (by rw [hax, hb])
  | some e0 =>
    by_cases hc : cf (val t) > cf e0.2
    · rw [upsert_of_some_gt key val cf m t e0 hf hc, List.map_map]
      have hco : (Prod.fst ∘ fun e2 : K × V => if e2.1 = key t then (e2.1, val t) else e2)
          = Prod.fst := funext (fun e2 => fst_upsert_entry key val t e2)
      rw [hco]
      exact h
    · rw [upsert_of_some_le key val cf m t e0 hf hc]
      exact h

theorem nodup_keys_foldl_upsert (ts : List α) :
    ∀ m : List (K × V), (m.map Prod.fst).Nodup →
      ((ts.foldl (upsert key val cf) m).map Prod.fst).Nodup := by
  induction ts with
  | nil =>
    intro m h
    exact h
  | cons t ts ih =>
    intro m h
    simp only [List.foldl_cons]
    exact ih (upsert key val cf m t) (nodup_keys_upsert key val cf m t h)

theorem nodup_keys_buildMap (ts : List α) :
    ((buildMap key val cf ts).map Prod.fst).Nodup :=
  nodup_keys_foldl_upsert key val cf ts [] (by simp)

theorem length_upsert_ge (m : List (K × V)) (t : α) :
    m.length ≤ (upsert key val cf m t).length := by
  cases hf : m.find? (fun e => decide (e.1 = key t)) with
  | none =>
    rw [upsert_of_none key val cf m t hf]
    simp
  | some e0 =>
    by_cases hc : cf (val t) > cf e0.2
    · rw [upsert_of_some_gt key val cf m t e0 hf hc]
      simp
    · rw [upsert_of_some_le key val cf m t e0 hf hc]

theorem length_foldl_upsert_ge (ts : List α) :
    ∀ m : List (K × V), m.length ≤ (ts.foldl (upsert key val cf) m).length := by
  induction ts with
  | nil =>
    intro m
    exact le_refl _
  | cons t ts ih =>
    intro m
    simp only [List.foldl_cons]
    exact le_trans (length_upsert_ge key val cf m t) (ih (upsert key val cf m t))

theorem buildMap_ne_nil (ts : List α) (h : ts ≠ []) : buildMap key val cf ts ≠ [] := by
  match ts with
  | t :: ts2 =>
    unfold buildMap
    simp only [List.foldl_cons]
    have h1 : upsert key val cf [] t = [(key t, val t)] :=
      upsert_of_none key val cf [] t rfl
    rw [h1]
    have h2 := length_foldl_upsert_ge key val cf ts2 [(key t, val t)]
    intro hcon
    rw [hcon] at h2
    simp at h2

theorem countP_key_le_one (l : List (K × V)) (h : (l.map Prod.fst).Nodup) (k : K) :
    l.countP (fun e => decide (e.1 = k)) ≤ 1 := by
  induction l with
  | nil => simp
  | cons e es ih =>
    rw [List.map_cons] at h
    rcases List.nodup_cons.mp h with ⟨hnin, hnd⟩
    by_cases hek : e.1 = k
    · rw [List.countP_cons_of_pos _ _ (by simpa using hek)]
      have hzero : es.countP (fun e => decide (e.1 = k)) = 0 := by
        apply List.countP_eq_zero.mpr
        intro e2 he2
        simp only [decide_eq_true_eq]
        intro h2
        exact hnin (List.mem_map.mpr ⟨e2, he2, by rw [h2, hek]⟩)
      omega
    · rw [List.countP_cons_of_neg _ _ (by simpa using hek)]
      exact ih hnd

end UpsertFacts


/-- The source's sentence-level deduplication (lines 186-192 of
`extract_kg.py`): a Python dict keyed by `unique_triple_key`, with
`dedup[key] = t` fired on a fresh key or when `t[3] > dedup[key][3]`
(an in-place value overwrite keeps the key's insertion position), and
finally `list(dedup.values())` in key insertion order. -/
def dedupTriples (ts : List Triple) : List Triple :=
  (buildMap unique_triple_key id Triple.conf ts).map Prod.snd

/-- The source's `extract_triples_from_sentence`: parse, collect entity
spans, run the SVO extractor then the prepositional extractor; only when
both produced nothing and at least two spans exist, extend with the
co-occurrence extractor; deduplicate; return the triples, the spans and
`doc.text`. -/
def extract_triples_from_sentence (nlp : String → Doc) (sentence : String) :
    List Triple × List EntitySpan × String :=
  let doc := nlp sentence
  let ents := extract_entities_from_sentence doc
  let triples := extract_svo_triples doc ents ++ extract_prep_triples doc ents
  let triples2 :=
    if triples = [] ∧ ents.length ≥ 2
    then triples ++ extract_cooccurrence_triples ents
    else triples
  (dedupTriples triples2, ents, doc.text)

/-- One row of the aggregated triple table (a `TripleRecord`): the surviving
triple plus its provenance. -/
structure Record where
  subject : String
  relation : String
  object : String
  confidence : Nat
  source_file : String
  sentence : String
deriving DecidableEq

/-- The key of the edge a record contributes to: the ordered pair
`(subject, object)`. -/
def recordEdgeKey (t : Record) : String × String := (t.subject, t.object)

/-- The edge attributes a record carries: `(relation, confidence)`. -/
def recordEdgeVal (t : Record) : String × Nat := (t.relation, t.confidence)

/-- The `networkx.DiGraph` being built: nodes in insertion order (each node's
`label` attribute equals its name and is not repeated here) and one
attribute-carrying edge per ordered node pair, in insertion order. -/
structure Graph where
  nodes : List String
  edges : List ((String × String) × (String × Nat))
deriving DecidableEq

/-- One iteration of the consolidation loop (lines 226-243): add the subject
and object nodes when absent, then create the edge or overwrite its
attributes when the incoming confidence is strictly greater. -/
def addRecord (G : Graph) (t : Record) : Graph :=
  let ns := if G.nodes.contains t.subject then G.nodes else G.nodes ++ [t.subject]
  let ns2 := if ns.contains t.object then ns else ns ++ [t.object]
  { nodes := ns2, edges := upsert recordEdgeKey recordEdgeVal Prod.snd G.edges t }

/-- The graph consolidation pass: fold the whole record sequence into an
initially empty directed graph. -/
def buildGraph (rs : List Record) : Graph :=
  rs.foldl addRecord (Graph.mk [] [])

/-- Lexicographic-by-code-point string comparison, the order Python `sorted`
uses on `os.listdir` filenames. -/
def strLeB : List Char → List Char → Bool
  | [], _ => true
  | _ :: _, [] => false
  | c :: cs, d :: ds =>
    if c.toNat < d.toNat then true
    else if d.toNat < c.toNat then false
    else strLeB cs ds

/-- One file of the processed folder: its name and, when `open` succeeds,
its raw lines (`none` models a file that raises on `open`). -/
abbrev FSEntry := String × Option (List String)

/-- Stable insertion into a name-sorted file list. -/
def insertByName (x : FSEntry) : List FSEntry → List FSEntry
  | [] => [x]
  | y :: ys => if strLeB x.1.data y.1.data then x :: y :: ys else y :: insertByName x ys

/-- Python `sorted(os.listdir(processed_folder))`. -/
def sortByName (l : List FSEntry) : List FSEntry := l.foldr insertByName []

/-- The source's filename test `fname.lower().endswith(".txt")`. -/
def isTxtName (fname : String) : Bool :=
  [ '.', 't', 'x', 't' ].isSuffixOf (fname.data.map Char.toLower)

/-- Body of the `load_processed_texts` loop over the sorted listing: skip
names not ending in `.txt`; opening an unreadable file raises (aborting the
whole call); otherwise strip every line, keep the non-blank ones, and store
the file under its name when any line survives. -/
def loadAux : List FSEntry → Except Unit (List (String × List String))
  | [] => Except.ok []
  | (fname, content) :: rest =>
    if isTxtName fname then
      match content with
      | none => Except.error ()
      | some lines =>
        let stripped := (lines.map pyStrip).filter (fun l => l ≠ "")
        match loadAux rest with
        | Except.error e => Except.error e
        | Except.ok d => Except.ok (if stripped = [] then d else (fname, stripped) :: d)
    else loadAux rest

/-- The source's `load_processed_texts`: iterate the sorted folder listing
and return the `{filename: [sentences...]}` mapping in iteration order. -/
def load_processed_texts (folder : List FSEntry) :
    Except Unit (List (String × List String)) :=
  loadAux (sortByName folder)

/-- Observable outcome of one `extract_kg_from_processed` run: the
aggregated records, whether the CSV was written, whether the empty-corpus
warning was printed, the consolidated graph, and whether `write_gml` ran
(the source calls it unconditionally). -/
structure KGResult where
  all_triples : List Record
  csvWritten : Bool
  warned : Bool
  graph : Graph
  gmlWritten : Bool
deriving DecidableEq

/-- The aggregation loop of `extract_kg_from_processed`: for every file in
order, for every sentence line in order, one record per surviving triple of
that sentence, carrying the source filename and `doc.text`. -/
def recordsOf (nlp : String → Doc) (data : List (String × List String)) : List Record :=
  data.flatMap (fun fs =>
    fs.2.flatMap (fun sent =>
      let r := extract_triples_from_sentence nlp sent
      r.1.map (fun t =>
        Record.mk t.subj t.rel t.obj t.conf fs.1 r.2.2)))

/-- The source's `extract_kg_from_processed`: load the processed texts (an
`open` failure propagates), aggregate the records, write the CSV only when
records exist (warn otherwise), consolidate the graph and always write the
GML. -/
def extract_kg_from_processed (nlp : String → Doc) (folder : List FSEntry) :
    Except Unit KGResult :=
  match load_processed_texts folder with
  | Except.error e => Except.error e
  | Except.ok data =>
    let all_triples := recordsOf nlp data
    Except.ok (KGResult.mk all_triples (!all_triples.isEmpty) all_triples.isEmpty
      (buildGraph all_triples) true)


theorem foldl_overwrite {β γ : Type} (p : β → Bool) (f : β → γ) (l : List β) :
    ∀ init : Option γ,
      l.foldl (fun acc c => if p c then some (f c) else acc) init
        = match (l.filter p).getLast? with
          | some c => some (f c)
          | none => init := by
  induction l with
  | nil =>
    intro init
    rfl
  | cons c cs ih =>
    intro init
    simp only [List.foldl_cons]
    by_cases hp : p c
    · rw [if_pos hp, ih (some (f c)), filter_cons_pos p c cs hp]
      cases hcs : (cs.filter p).getLast? with
      | none =>
        have : cs.filter p = [] := List.getLast?_eq_none_iff.mp hcs
        rw [this]
        rfl
      | some d =>
        match hfil : cs.filter p with
        | [] =>
          rw [hfil] at hcs
          simp at hcs
        | e :: es =>
          rw [hfil] at hcs
          rw [List.getLast?_cons_cons, hcs]
    · rw [if_neg hp, ih init, filter_cons_neg p c cs (by simpa using hp)]

theorem find?_filter_mono {β : Type} (p q r : β → Bool) (l : List β) (t : β)
    (himp : ∀ x, r x = true → q x = true) (hrt : r t = true) :
    (l.filter q).find? p = some t → (l.filter r).find? p = some t := by
  induction l with
  | nil =>
    intro h
    simp [List.filter] at h
  | cons x xs ih =>
    intro h
    by_cases hq : q x
    · rw [filter_cons_pos q x xs hq] at h
      by_cases hp : p x
      · rw [List.find?_cons_of_pos _ hp] at h
        have hx : x = t := by simpa using h
        subst hx
        by_cases hr : r x
        · rw [filter_cons_pos r x xs hr]
          exact List.find?_cons_of_pos _ hp
        · exact absurd hrt (by simpa using hr)
      · rw [List.find?_cons_of_neg _ hp] at h
        by_cases hr : r x
        · rw [filter_cons_pos r x xs hr]
          rw [List.find?_cons_of_neg _ hp]
          exact ih h
        · rw [filter_cons_neg r x xs (by simpa using hr)]
          exact ih h
    · have hr : r x = false := by
        cases hrx : r x with
        | false => rfl
        | true => exact absurd (himp x hrx) (by simpa using hq)
      rw [filter_cons_neg q x xs (by simpa using hq)] at h
      rw [filter_cons_neg r x xs hr]
      exact ih h

theorem find?_eq_of_mem_nodup {K V : Type} [DecidableEq K]
    (l : List (K × V)) (e : K × V)
    (hnd : (l.map Prod.fst).Nodup) (he : e ∈ l) :
    l.find? (fun x => decide (x.1 = e.1)) = some e := by
  induction l with
  | nil => simp at he
  | cons x xs ih =>
    rw [List.map_cons] at hnd
    rcases List.nodup_cons.mp hnd with ⟨hnin, hnd2⟩
    rcases List.mem_cons.mp he with h1 | h1
    · subst h1
      exact List.find?_cons_of_pos _ (by simp)
    · have hxe : ¬ (x.1 = e.1) := by
        intro hcon
        exact hnin (List.mem_map.mpr ⟨e, h1, hcon.symm⟩)
      rw [List.find?_cons_of_neg _ (by simpa using hxe)]
      exact ih hnd2 h1

theorem mem_dedupTriples (ts : List Triple) (t : Triple)
    (h : t ∈ dedupTriples ts) : t ∈ ts := by
  unfold dedupTriples at h
  rcases List.mem_map.mp h with ⟨e, he, h2⟩
  rcases mem_buildMap unique_triple_key id Triple.conf ts e he with ⟨t2, ht2, he2⟩
  rw [← h2, he2]
  exact ht2

theorem dedupTriples_ne_nil (ts : List Triple) (h : ts ≠ []) :
    dedupTriples ts ≠ [] := by
  unfold dedupTriples
  intro hcon
  exact buildMap_ne_nil unique_triple_key id Triple.conf ts h (List.map_eq_nil_iff.mp hcon)

theorem dedup_entry_key (ts : List Triple) (e : String × Triple)
    (he : e ∈ buildMap unique_triple_key id Triple.conf ts) :
    e.1 = unique_triple_key e.2 := by
  rcases mem_buildMap unique_triple_key id Triple.conf ts e he with ⟨t2, _, he2⟩
  rw [he2]
  rfl

theorem buildGraph_edges_aux (rs : List Record) :
    ∀ G : Graph,
      (rs.foldl addRecord G).edges
        = rs.foldl (upsert recordEdgeKey recordEdgeVal Prod.snd) G.edges := by
  induction rs with
  | nil =>
    intro G
    rfl
  | cons t rs ih =>
    intro G
    simp only [List.foldl_cons]
    rw [ih (addRecord G t)]
    rfl

theorem buildGraph_edges (rs : List Record) :
    (buildGraph rs).edges = buildMap recordEdgeKey recordEdgeVal Prod.snd rs := by
  unfold buildGraph buildMap
  exact buildGraph_edges_aux rs (Graph.mk [] [])


/-- C2: after the graph consolidator has consumed the whole record sequence,
every ordered node pair (u, v) with at least one contributing record carries
exactly one edge u→v; the edge confidence is the maximum confidence among the
contributing records (an upper bound attained by a contributor), and the edge
relation is the relation of the earliest contributing record achieving that
maximum, since an incoming record replaces the stored attributes only when
its confidence is strictly greater. -/
theorem C2_graph_merge_invariant (rs : List Record) (u v : String)
    (hne : rs.filter (fun t => decide (t.subject = u ∧ t.object = v)) ≠ []) :
    (buildGraph rs).edges.countP (fun e => decide (e.1 = (u, v))) = 1 ∧
    ∃ rel c,
      (buildGraph rs).edges.find? (fun e => decide (e.1 = (u, v)))
        = some ((u, v), (rel, c)) ∧
      (∀ t ∈ rs.filter (fun t => decide (t.subject = u ∧ t.object = v)),
        t.confidence ≤ c) ∧
      ∃ t0, (rs.filter (fun t => decide (t.subject = u ∧ t.object = v))).find?
          (fun t => decide (c ≤ t.confidence)) = some t0 ∧
        t0.relation = rel ∧ t0.confidence = c := by
  have hpeq : ∀ t ∈ rs,
      (decide (recordEdgeKey t = (u, v))) = (decide (t.subject = u ∧ t.object = v)) := by
    intro t _
    simp [recordEdgeKey, Prod.ext_iff]
  have hfe : rs.filter (fun t => decide (recordEdgeKey t = (u, v)))
      = rs.filter (fun t => decide (t.subject = u ∧ t.object = v)) :=
    List.filter_congr hpeq
  rw [buildGraph_edges]
  have hfind := find?_buildMap recordEdgeKey recordEdgeVal Prod.snd rs (u, v)
  rw [hfe] at hfind
  cases hbo : bestOf Prod.snd
      ((rs.filter (fun t => decide (t.subject = u ∧ t.object = v))).map recordEdgeVal) with
  | none =>
    have := (bestOf_none_iff Prod.snd _).mp hbo
    exact absurd (List.map_eq_nil_iff.mp this) hne
  | some w =>
    obtain ⟨rel, c⟩ := w
    rw [hbo] at hfind
    simp only [Option.map_some'] at hfind
    constructor
    · have hmem : ((u, v), (rel, c)) ∈ buildMap recordEdgeKey recordEdgeVal Prod.snd rs :=
        List.mem_of_find?_eq_some hfind
      have h1 : 0 < (buildMap recordEdgeKey recordEdgeVal Prod.snd rs).countP
          (fun e => decide (e.1 = (u, v))) :=
        List.countP_pos_iff.mpr ⟨_, hmem, by simp⟩
      have h2 := countP_key_le_one
        (buildMap recordEdgeKey recordEdgeVal Prod.snd rs)
        (nodup_keys_buildMap recordEdgeKey recordEdgeVal Prod.snd rs) (u, v)
      omega
    · refine ⟨rel, c, hfind, ?_, ?_⟩
      · obtain ⟨_, hub, _⟩ := bestOf_spec Prod.snd _ _ hbo
        intro t ht
        exact hub (recordEdgeVal t) (List.mem_map.mpr ⟨t, ht, rfl⟩)
      · obtain ⟨_, _, hfindv⟩ := bestOf_spec Prod.snd _ _ hbo
        rw [List.find?_map] at hfindv
        cases hf0 : (rs.filter (fun t => decide (t.subject = u ∧ t.object = v))).find?
            ((fun w => decide ((rel, c).2 ≤ w.2)) ∘ recordEdgeVal) with
        | none =>
          rw [hf0] at hfindv
          simp at hfindv
        | some t0 =>
          rw [hf0] at hfindv
          simp only [Option.map_some', Option.some_inj] at hfindv
          refine ⟨t0, hf0, ?_, ?_⟩
          · exact congrArg Prod.fst hfindv
          · exact congrArg Prod.snd hfindv

/-- Concrete instantiation of `C2_graph_merge_invariant`: two records for the
pair (a, b) with confidences 7 then 10; the surviving edge has relation `r2`
and confidence 10, the relation of the first (and only) record achieving the
maximum. -/
theorem C2_graph_merge_invariant_witness :
    ([Record.mk "a" "r1" "b" 7 "f" "s1", Record.mk "a" "r2" "b" 10 "g" "s2"].filter
        (fun t => decide (t.subject = "a" ∧ t.object = "b")) ≠ []) ∧
    ((buildGraph [Record.mk "a" "r1" "b" 7 "f" "s1",
        Record.mk "a" "r2" "b" 10 "g" "s2"]).edges.countP
      (fun e => decide (e.1 = ("a", "b"))) = 1) := by
  constructor
  · decide
  · exact (C2_graph_merge_invariant
      [Record.mk "a" "r1" "b" 7 "f" "s1", Record.mk "a" "r2" "b" 10 "g" "s2"]
      "a" "b" (by decide)).1


theorem unique_triple_key_of_fields (x : Triple) (s r o : String)
    (h1 : x.subj = s) (h2 : x.rel = r) (h3 : x.obj = o) :
    unique_triple_key x = s ++ "|" ++ r ++ "|" ++ o := by
  unfold unique_triple_key
  rw [h1, h2, h3]

/-- C3: for any candidate triple list (the concatenated extractor output of
one sentence), the deduplicated output has at most one triple per
(subject, relation, object) key; a surviving triple's confidence is an upper
bound on (hence the maximum of) the confidences of the candidates sharing its
key, and the survivor is the earliest candidate whose confidence reaches that
maximum, so equal-confidence collisions keep the first seen. -/
theorem C3_dedup_key_invariant (ts : List Triple) (s r o : String) :
    ((dedupTriples ts).filter
        (fun t => decide (t.subj = s ∧ t.rel = r ∧ t.obj = o))).length ≤ 1 ∧
    ∀ t ∈ (dedupTriples ts).filter
        (fun t => decide (t.subj = s ∧ t.rel = r ∧ t.obj = o)),
      (∀ u2 ∈ ts.filter (fun x => decide (x.subj = s ∧ x.rel = r ∧ x.obj = o)),
        u2.conf ≤ t.conf) ∧
      (ts.filter (fun x => decide (x.subj = s ∧ x.rel = r ∧ x.obj = o))).find?
        (fun u2 => decide (t.conf ≤ u2.conf)) = some t := by
  constructor
  · unfold dedupTriples
    rw [List.filter_map, List.length_map, ← List.countP_eq_length_filter]
    have himp : ∀ e ∈ buildMap unique_triple_key id Triple.conf ts,
        ((fun t : Triple => decide (t.subj = s ∧ t.rel = r ∧ t.obj = o)) ∘ Prod.snd) e
          = true →
        (fun e : String × Triple => decide (e.1 = s ++ "|" ++ r ++ "|" ++ o)) e = true := by
      intro e he hp
      simp only [Function.comp_apply, decide_eq_true_eq] at hp
      obtain ⟨h1, h2, h3⟩ := hp
      simp only [decide_eq_true_eq]
      rw [dedup_entry_key ts e he]
      exact unique_triple_key_of_fields e.2 s r o h1 h2 h3
    calc (buildMap unique_triple_key id Triple.conf ts).countP
          ((fun t : Triple => decide (t.subj = s ∧ t.rel = r ∧ t.obj = o)) ∘ Prod.snd)
        ≤ (buildMap unique_triple_key id Triple.conf ts).countP
          (fun e => decide (e.1 = s ++ "|" ++ r ++ "|" ++ o)) :=
          List.countP_mono_left himp
      _ ≤ 1 := countP_key_le_one _
          (nodup_keys_buildMap unique_triple_key id Triple.conf ts) _
  · intro t ht
    unfold dedupTriples at ht
    rw [List.filter_map] at ht
    rcases List.mem_map.mp ht with ⟨e, hef, hesnd⟩
    obtain ⟨hebm, hpe⟩ := List.mem_filter.mp hef
    simp only [Function.comp_apply, decide_eq_true_eq] at hpe
    obtain ⟨hp1, hp2, hp3⟩ := hpe
    have hkey : e.1 = unique_triple_key e.2 := dedup_entry_key ts e hebm
    have hfind1 : (buildMap unique_triple_key id Triple.conf ts).find?
        (fun x => decide (x.1 = e.1)) = some e :=
      find?_eq_of_mem_nodup _ e (nodup_keys_buildMap unique_triple_key id Triple.conf ts) hebm
    have hfind2 := find?_buildMap unique_triple_key id Triple.conf ts e.1
    rw [hfind1, List.map_id] at hfind2
    cases hbo : bestOf Triple.conf
        (ts.filter (fun x => decide (unique_triple_key x = e.1))) with
    | none =>
      rw [hbo] at hfind2
      simp at hfind2
    | some t1 =>
      rw [hbo] at hfind2
      simp only [Option.map_some', Option.some_inj] at hfind2
      have ht1 : t1 = e.2 := (congrArg Prod.snd hfind2).symm
      subst ht1
      obtain ⟨hmem1, hub1, hfindv1⟩ := bestOf_spec Triple.conf _ _ hbo
      have hclsmem : ∀ x : Triple, x.subj = s → x.rel = r → x.obj = o →
          (unique_triple_key x = e.1) := by
        intro x h1 h2 h3
        rw [hkey, unique_triple_key_of_fields e.2 s r o hp1 hp2 hp3]
        exact unique_triple_key_of_fields x s r o h1 h2 h3
      subst hesnd
      constructor
      · intro u2 hu2
        rcases List.mem_filter.mp hu2 with ⟨hu2m, hu2p⟩
        simp only [decide_eq_true_eq] at hu2p
        obtain ⟨h1, h2, h3⟩ := hu2p
        exact hub1 u2 (List.mem_filter.mpr
          ⟨hu2m, by simpa using hclsmem u2 h1 h2 h3⟩)
      · apply find?_filter_mono (fun u2 => decide (e.2.conf ≤ u2.conf))
          (fun x => decide (unique_triple_key x = e.1))
          (fun x => decide (x.subj = s ∧ x.rel = r ∧ x.obj = o)) ts e.2
        · intro x hx
          simp only [decide_eq_true_eq] at hx
          obtain ⟨h1, h2, h3⟩ := hx
          simpa using hclsmem x h1 h2 h3
        · simp only [decide_eq_true_eq]
          exact ⟨hp1, hp2, hp3⟩
        · exact hfindv1

/-- Concrete instantiation of `C3_dedup_key_invariant`: three candidates with
the key (a, r, b) and confidences 7, 10, 10; one survivor remains and it is
the second candidate (the first achieving the maximal confidence 10). -/
theorem C3_dedup_key_invariant_witness :
    (dedupTriples [Triple.mk "a" "r" "b" 7, Triple.mk "a" "r" "b" 10,
        Triple.mk "a" "r" "b" 10]).filter
      (fun t => decide (t.subj = "a" ∧ t.rel = "r" ∧ t.obj = "b"))
        = [Triple.mk "a" "r" "b" 10] ∧
    ([Triple.mk "a" "r" "b" 7, Triple.mk "a" "r" "b" 10,
        Triple.mk "a" "r" "b" 10].filter
      (fun x => decide (x.subj = "a" ∧ x.rel = "r" ∧ x.obj = "b"))).find?
      (fun u2 => decide ((Triple.mk "a" "r" "b" 10).conf ≤ u2.conf))
        = some (Triple.mk "a" "r" "b" 10) := by
  constructor
  · decide
  · exact ((C3_dedup_key_invariant [Triple.mk "a" "r" "b" 7, Triple.mk "a" "r" "b" 10,
      Triple.mk "a" "r" "b" 10] "a" "r" "b").2 (Triple.mk "a" "r" "b" 10) (by decide)).2


theorem foldl_overwrite_none {β γ : Type} (p : β → Bool) (f : β → γ) (l : List β)
    (init : Option γ) (h : (l.filter p).getLast? = none) :
    l.foldl (fun acc c => if p c then some (f c) else acc) init = init := by
  rw [foldl_overwrite p f l init, h]

theorem foldl_overwrite_some {β γ : Type} (p : β → Bool) (f : β → γ) (l : List β)
    (init : Option γ) (c : β) (h : (l.filter p).getLast? = some c) :
    l.foldl (fun acc c => if p c then some (f c) else acc) init = some (f c) := by
  rw [foldl_overwrite p f l init, h]

theorem getD_norm (l : List EntitySpan) (i : Nat) :
    ∃ a, (l.map (fun e => normalize_entity e.text)).getD i "" = normalize_entity a := by
  by_cases hi : i < (l.map (fun e => normalize_entity e.text)).length
  · have hi2 : i < l.length := by simpa using hi
    refine ⟨(l.get ⟨i, hi2⟩).text, ?_⟩
    rw [List.getD_eq_getElem?_getD, List.getElem?_eq_getElem hi]
    simp only [Option.getD_some, List.getElem_map, List.get_eq_getElem]
  · refine ⟨"", ?_⟩
    rw [List.getD_eq_getElem?_getD, List.getElem?_eq_none (by omega), Option.getD_none]
    exact normalize_entity_empty.symm

theorem mem_svo_shape (doc : Doc) (ents : List EntitySpan) (t : Triple)
    (h : t ∈ extract_svo_triples doc ents) :
    ∃ s lem d, t = Triple.mk (normalize_entity s) lem (normalize_entity d) 10 := by
  unfold extract_svo_triples at h
  simp only [List.mem_flatMap] at h
  obtain ⟨tok, _, hb⟩ := h
  repeat' split at hb
  all_goals first
    | (simp only [List.mem_singleton] at hb
       exact ⟨_, _, _, hb⟩)
    | simp at hb

theorem mem_prep_shape (doc : Doc) (ents : List EntitySpan) (t : Triple)
    (h : t ∈ extract_prep_triples doc ents) :
    ∃ s relStr x, t = Triple.mk (normalize_entity s) relStr (normalize_entity x) 7 := by
  unfold extract_prep_triples at h
  simp only [List.mem_flatMap] at h
  obtain ⟨tok, _, hb⟩ := h
  cases hlast : ((childrenOf doc tok).filter (fun child => child.dep == "pobj")).getLast? with
  | none =>
    rw [foldl_overwrite_none (fun child => child.dep == "pobj")
      (fun child => normalize_entity (resolveToken ents child))
      (childrenOf doc tok) none hlast] at hb
    simp only [] at hb
    repeat' split at hb
    all_goals simp at hb
  | some c =>
    rw [foldl_overwrite_some (fun child => child.dep == "pobj")
      (fun child => normalize_entity (resolveToken ents child))
      (childrenOf doc tok) none c hlast] at hb
    simp only [] at hb
    repeat' split at hb
    all_goals first
      | (simp only [List.mem_singleton] at hb
         exact ⟨_, _, _, hb⟩)
      | simp at hb

theorem mem_cooc_shape (ents : List EntitySpan) (t : Triple)
    (h : t ∈ extract_cooccurrence_triples ents) :
    ∃ a b, t = Triple.mk (normalize_entity a) "related_to" (normalize_entity b) 4 := by
  unfold extract_cooccurrence_triples at h
  simp only [List.mem_flatMap] at h
  obtain ⟨i, hi, h2⟩ := h
  obtain ⟨j, hj, hb⟩ := h2
  obtain ⟨a, ha⟩ := getD_norm ents i
  obtain ⟨b, hbd⟩ := getD_norm ents j
  split at hb
  · simp only [List.mem_singleton] at hb
    refine ⟨a, b, ?_⟩
    rw [hb, ha, hbd]
  · simp at hb


theorem extract_kg_of_ok (nlp : String → Doc) (folder : List FSEntry)
    (data : List (String × List String))
    (h : load_processed_texts folder = Except.ok data) :
    extract_kg_from_processed nlp folder
      = Except.ok (KGResult.mk (recordsOf nlp data) (!(recordsOf nlp data).isEmpty)
          (recordsOf nlp data).isEmpty (buildGraph (recordsOf nlp data)) true) := by
  unfold extract_kg_from_processed
  rw [h]

theorem extract_kg_of_error (nlp : String → Doc) (folder : List FSEntry)
    (h : load_processed_texts folder = Except.error ()) :
    extract_kg_from_processed nlp folder = Except.error () := by
  unfold extract_kg_from_processed
  rw [h]

theorem extract_kg_ok_inv (nlp : String → Doc) (folder : List FSEntry) (res : KGResult)
    (h : extract_kg_from_processed nlp folder = Except.ok res) :
    ∃ data, load_processed_texts folder = Except.ok data ∧
      res = KGResult.mk (recordsOf nlp data) (!(recordsOf nlp data).isEmpty)
        (recordsOf nlp data).isEmpty (buildGraph (recordsOf nlp data)) true := by
  cases hl : load_processed_texts folder with
  | error e =>
    cases e
    rw [extract_kg_of_error nlp folder hl] at h
    cases h
  | ok data =>
    rw [extract_kg_of_ok nlp folder data hl] at h
    refine ⟨data, rfl, ?_⟩
    cases h
    rfl

theorem mem_recordsOf (nlp : String → Doc) (data : List (String × List String))
    (r : Record) (h : r ∈ recordsOf nlp data) :
    ∃ fs ∈ data, ∃ sent ∈ fs.2, ∃ t ∈ (extract_triples_from_sentence nlp sent).1,
      r = Record.mk t.subj t.rel t.obj t.conf fs.1
            (extract_triples_from_sentence nlp sent).2.2 := by
  unfold recordsOf at h
  simp only [List.mem_flatMap, List.mem_map] at h
  obtain ⟨fs, hfs, sent, hsent, t, ht, hr⟩ := h
  exact ⟨fs, hfs, sent, hsent, t, ht, hr.symm⟩

theorem mem_sentence_triples (nlp : String → Doc) (sentence : String) (t : Triple)
    (h : t ∈ (extract_triples_from_sentence nlp sentence).1) :
    t ∈ extract_svo_triples (nlp sentence) (extract_entities_from_sentence (nlp sentence)) ∨
    t ∈ extract_prep_triples (nlp sentence) (extract_entities_from_sentence (nlp sentence)) ∨
    t ∈ extract_cooccurrence_triples (extract_entities_from_sentence (nlp sentence)) := by
  unfold extract_triples_from_sentence at h
  simp only [] at h
  have h2 := mem_dedupTriples _ t h
  split at h2
  · rcases List.mem_append.mp h2 with h3 | h3
    · rcases List.mem_append.mp h3 with h4 | h4
      · exact Or.inl h4
      · exact Or.inr (Or.inl h4)
    · exact Or.inr (Or.inr h3)
  · rcases List.mem_append.mp h2 with h3 | h3
    · exact Or.inl h3
    · exact Or.inr (Or.inl h3)

theorem triple_inv_extractors (doc : Doc) (ents : List EntitySpan) (t : Triple)
    (h : t ∈ extract_svo_triples doc ents ∨ t ∈ extract_prep_triples doc ents ∨
      t ∈ extract_cooccurrence_triples ents) :
    normalize_entity t.subj = t.subj ∧ normalize_entity t.obj = t.obj ∧
      (t.conf = 4 ∨ t.conf = 7 ∨ t.conf = 10) := by
  rcases h with h | h | h
  · obtain ⟨s, lem, d, ht⟩ := mem_svo_shape doc ents t h
    subst ht
    exact ⟨normalize_entity_idem s, normalize_entity_idem d, Or.inr (Or.inr rfl)⟩
  · obtain ⟨s, relStr, x, ht⟩ := mem_prep_shape doc ents t h
    subst ht
    exact ⟨normalize_entity_idem s, normalize_entity_idem x, Or.inr (Or.inl rfl)⟩
  · obtain ⟨a, b, ht⟩ := mem_cooc_shape ents t h
    subst ht
    exact ⟨normalize_entity_idem a, normalize_entity_idem b, Or.inl rfl⟩

theorem triple_inv_sentence (nlp : String → Doc) (sentence : String) (t : Triple)
    (h : t ∈ (extract_triples_from_sentence nlp sentence).1) :
    normalize_entity t.subj = t.subj ∧ normalize_entity t.obj = t.obj ∧
      (t.conf = 4 ∨ t.conf = 7 ∨ t.conf = 10) :=
  triple_inv_extractors (nlp sentence) (extract_entities_from_sentence (nlp sentence)) t
    (mem_sentence_triples nlp sentence t h)

/-- C9: every triple emitted by any of the three extractors, every surviving
triple of a sentence, and every aggregated record has subject and object
that are fixed points of `normalize_entity` (lowercase, whitespace collapsed,
trimmed) — including when entity resolution fell back to raw token text —
and a confidence equal to 0.4, 0.7 or 1.0 (4, 7 or 10 in tenths). -/
theorem C9_normalized_fixed_points_and_confidence_tiers :
    (∀ (doc : Doc) (ents : List EntitySpan) (t : Triple),
        (t ∈ extract_svo_triples doc ents ∨ t ∈ extract_prep_triples doc ents ∨
          t ∈ extract_cooccurrence_triples ents) →
        normalize_entity t.subj = t.subj ∧ normalize_entity t.obj = t.obj ∧
          (t.conf = 4 ∨ t.conf = 7 ∨ t.conf = 10)) ∧
    (∀ (nlp : String → Doc) (sentence : String) (t : Triple),
        t ∈ (extract_triples_from_sentence nlp sentence).1 →
        normalize_entity t.subj = t.subj ∧ normalize_entity t.obj = t.obj ∧
          (t.conf = 4 ∨ t.conf = 7 ∨ t.conf = 10)) ∧
    (∀ (nlp : String → Doc) (folder : List FSEntry) (res : KGResult) (r : Record),
        extract_kg_from_processed nlp folder = Except.ok res → r ∈ res.all_triples →
        normalize_entity r.subject = r.subject ∧ normalize_entity r.object = r.object ∧
          (r.confidence = 4 ∨ r.confidence = 7 ∨ r.confidence = 10)) := by
  refine ⟨triple_inv_extractors, triple_inv_sentence, ?_⟩
  intro nlp folder res r hok hr
  obtain ⟨data, _, hres⟩ := extract_kg_ok_inv nlp folder res hok
  subst hres
  obtain ⟨fs, _, sent, _, t, ht, hrt⟩ := mem_recordsOf nlp data r hr
  obtain ⟨h1, h2, h3⟩ := triple_inv_sentence nlp sent t ht
  subst hrt
  exact ⟨h1, h2, h3⟩

/-- Concrete instantiation of C9: the co-occurrence extractor over two
named-entity spans emits (paris, related_to, rome, 0.4) whose subject and
object are fixed under normalization and whose confidence is in the allowed
set. -/
theorem C9_witness :
    (Triple.mk "paris" "related_to" "rome" 4
        ∈ extract_cooccurrence_triples
          [EntitySpan.mk "paris" 0 5 Method.NER, EntitySpan.mk "rome" 9 13 Method.NER]) ∧
    normalize_entity "paris" = "paris" ∧ normalize_entity "rome" = "rome" := by
  refine ⟨by decide, ?_, ?_⟩
  · exact (C9_normalized_fixed_points_and_confidence_tiers.1 (Doc.mk [] [] [] "")
      [EntitySpan.mk "paris" 0 5 Method.NER, EntitySpan.mk "rome" 9 13 Method.NER]
      (Triple.mk "paris" "related_to" "rome" 4) (Or.inr (Or.inr (by decide)))).1
  · exact (C9_normalized_fixed_points_and_confidence_tiers.1 (Doc.mk [] [] [] "")
      [EntitySpan.mk "paris" 0 5 Method.NER, EntitySpan.mk "rome" 9 13 Method.NER]
      (Triple.mk "paris" "related_to" "rome" 4) (Or.inr (Or.inr (by decide)))).2.1


theorem conf_of_mem_svo (doc : Doc) (ents : List EntitySpan) (t : Triple)
    (h : t ∈ extract_svo_triples doc ents) : t.conf = 10 := by
  obtain ⟨s, lem, d, ht⟩ := mem_svo_shape doc ents t h
  rw [ht]

theorem conf_of_mem_prep (doc : Doc) (ents : List EntitySpan) (t : Triple)
    (h : t ∈ extract_prep_triples doc ents) : t.conf = 7 := by
  obtain ⟨s, relStr, x, ht⟩ := mem_prep_shape doc ents t h
  rw [ht]

theorem mem_cooc_elim (ents : List EntitySpan) (t : Triple)
    (h : t ∈ extract_cooccurrence_triples ents) :
    ∃ i j, i < j ∧ j < ents.length ∧
      (ents.map (fun e => normalize_entity e.text)).getD i ""
        ≠ (ents.map (fun e => normalize_entity e.text)).getD j "" ∧
      t = Triple.mk ((ents.map (fun e => normalize_entity e.text)).getD i "")
            "related_to" ((ents.map (fun e => normalize_entity e.text)).getD j "") 4 := by
  unfold extract_cooccurrence_triples at h
  simp only [List.mem_flatMap, List.mem_filter, List.mem_range] at h
  obtain ⟨i, hi, j, ⟨hj, hij⟩, hb⟩ := h
  split at hb
  next hne =>
    simp only [List.mem_singleton] at hb
    exact ⟨i, j, by simpa using hij, by simpa using hj, hne, hb⟩
  next =>
    simp at hb

theorem cooc_mem_intro (ents : List EntitySpan) (i j : Nat) (hij : i < j)
    (hj : j < ents.length)
    (hne : (ents.map (fun e => normalize_entity e.text)).getD i ""
         ≠ (ents.map (fun e => normalize_entity e.text)).getD j "") :
    Triple.mk ((ents.map (fun e => normalize_entity e.text)).getD i "") "related_to"
        ((ents.map (fun e => normalize_entity e.text)).getD j "") 4
      ∈ extract_cooccurrence_triples ents := by
  unfold extract_cooccurrence_triples
  simp only [List.mem_flatMap, List.mem_filter, List.mem_range]
  refine ⟨i, by simp; omega, j, ⟨by simp; omega, by simpa using hij⟩, ?_⟩
  rw [if_pos hne]
  exact List.mem_singleton_self _

theorem flatMap_singleton_filterMap {β γ : Type} (P : β → Prop) [DecidablePred P]
    (f : β → γ) (l : List β) :
    l.flatMap (fun j => if P j then [f j] else [])
      = l.filterMap (fun j => if P j then some (f j) else none) := by
  induction l with
  | nil => rfl
  | cons x xs ih =>
    by_cases hx : P x
    · simp only [List.flatMap_cons, List.filterMap_cons, if_pos hx]
      rw [ih]
      rfl
    · simp only [List.flatMap_cons, List.filterMap_cons, if_neg hx]
      rw [ih]
      rfl

theorem sentence_output_eq (nlp : String → Doc) (sentence : String) :
    (extract_triples_from_sentence nlp sentence).1
      = dedupTriples
          (if (extract_svo_triples (nlp sentence)
                (extract_entities_from_sentence (nlp sentence))
              ++ extract_prep_triples (nlp sentence)
                (extract_entities_from_sentence (nlp sentence))) = []
            ∧ (extract_entities_from_sentence (nlp sentence)).length ≥ 2
          then (extract_svo_triples (nlp sentence)
                (extract_entities_from_sentence (nlp sentence))
              ++ extract_prep_triples (nlp sentence)
                (extract_entities_from_sentence (nlp sentence)))
            ++ extract_cooccurrence_triples (extract_entities_from_sentence (nlp sentence))
          else (extract_svo_triples (nlp sentence)
                (extract_entities_from_sentence (nlp sentence))
              ++ extract_prep_triples (nlp sentence)
                (extract_entities_from_sentence (nlp sentence)))) := rfl

/-- Annotated sentence refuting C4 as stated: two tokens, neither a VERB nor
carrying a `prep` dependency, and two named-entity spans that normalize to
the same text `paris`. SVO and prepositional extraction yield nothing and
two entity spans were detected, yet the sentence output carries no
co-occurrence triple, because the only entity pair has identical normalized
texts. -/
def docC4 : Doc :=
  Doc.mk
    [Token.mk 0 0 "Paris" "paris" "PROPN" "compound" 1,
     Token.mk 1 6 "Paris" "paris" "PROPN" "ROOT" 1]
    [RawSpan.mk "Paris" 0 5, RawSpan.mk "Paris" 6 11]
    [] "Paris Paris"

/-- The annotator producing `docC4` for the counterexample sentence. -/
def nlpC4 : String → Doc := fun _ => docC4

/-- C4 as stated fails on `docC4`: both stronger extractors yield zero
triples and two entity spans were detected, yet no (related_to, 0.4) triple
is present in the sentence output — the output is empty, because the two
spans share one normalized text. -/
theorem C4_counterexample :
    (extract_svo_triples docC4 (extract_entities_from_sentence docC4)
        ++ extract_prep_triples docC4 (extract_entities_from_sentence docC4)) = [] ∧
    (extract_entities_from_sentence docC4).length ≥ 2 ∧
    (extract_triples_from_sentence nlpC4 "Paris Paris").1 = [] := by
  refine ⟨by decide, by decide, by decide⟩


/-- The normalized texts of the collected entity spans, in order. -/
def entTexts (ents : List EntitySpan) : List String :=
  ents.map (fun e => normalize_entity e.text)

/-- Spec-side restatement of the co-occurrence emission: one triple for every
index pair i < j of entity spans whose normalized texts differ, in loop
order. -/
def coocSpec (ents : List EntitySpan) : List Triple :=
  (List.range (entTexts ents).length).flatMap (fun i =>
    ((List.range (entTexts ents).length).filter (fun j => i < j)).filterMap (fun j =>
      if (entTexts ents).getD i "" ≠ (entTexts ents).getD j ""
      then some (Triple.mk ((entTexts ents).getD i "") "related_to"
        ((entTexts ents).getD j "") 4)
      else none))

theorem cooc_eq_coocSpec (ents : List EntitySpan) :
    extract_cooccurrence_triples ents = coocSpec ents := by
  unfold extract_cooccurrence_triples coocSpec entTexts
  refine congrArg List.flatten (List.map_congr_left (fun i _ => ?_))
  exact flatMap_singleton_filterMap
    (fun j => (ents.map (fun e => normalize_entity e.text)).getD i ""
      ≠ (ents.map (fun e => normalize_entity e.text)).getD j "")
    (fun j => Triple.mk ((ents.map (fun e => normalize_entity e.text)).getD i "")
      "related_to" ((ents.map (fun e => normalize_entity e.text)).getD j "") 4)
    ((List.range (ents.map (fun e => normalize_entity e.text)).length).filter
      (fun j => i < j))

/-- C4 (amended): a (related_to, 0.4) co-occurrence triple is present in a
sentence's output exactly when the SVO and prepositional extractors together
yielded zero triples AND at least two entity spans were detected AND some
pair of detected spans has differing normalized texts (the last condition is
forced by the counterexample: pairs whose texts coincide are skipped, so a
sentence whose spans all normalize to one text produces nothing). When the
fallback is activated, the emission is exactly one triple per index pair
i < j with differing normalized texts, in loop order. -/
theorem C4_fallback_gating_amended (nlp : String → Doc) (sentence : String) :
    ((∃ t ∈ (extract_triples_from_sentence nlp sentence).1,
        t.rel = "related_to" ∧ t.conf = 4) ↔
      ((extract_svo_triples (nlp sentence) (extract_entities_from_sentence (nlp sentence))
          ++ extract_prep_triples (nlp sentence)
            (extract_entities_from_sentence (nlp sentence))) = [] ∧
        (extract_entities_from_sentence (nlp sentence)).length ≥ 2 ∧
        ∃ i j, i < j ∧ j < (extract_entities_from_sentence (nlp sentence)).length ∧
          (entTexts (extract_entities_from_sentence (nlp sentence))).getD i ""
            ≠ (entTexts (extract_entities_from_sentence (nlp sentence))).getD j "")) ∧
    extract_cooccurrence_triples (extract_entities_from_sentence (nlp sentence))
      = coocSpec (extract_entities_from_sentence (nlp sentence)) := by
  refine ⟨?_, cooc_eq_coocSpec _⟩
  constructor
  · rintro ⟨t, ht, hrel, hconf⟩
    rw [sentence_output_eq] at ht
    by_cases hcond :
        (extract_svo_triples (nlp sentence) (extract_entities_from_sentence (nlp sentence))
          ++ extract_prep_triples (nlp sentence)
            (extract_entities_from_sentence (nlp sentence))) = []
        ∧ (extract_entities_from_sentence (nlp sentence)).length ≥ 2
    · rw [if_pos hcond] at ht
      have ht2 := mem_dedupTriples _ t ht
      rcases List.mem_append.mp ht2 with h3 | h3
      · rw [hcond.1] at h3
        simp at h3
      · obtain ⟨i, j, hij, hj, hne, _⟩ :=
          mem_cooc_elim (extract_entities_from_sentence (nlp sentence)) t h3
        exact ⟨hcond.1, hcond.2, i, j, hij, hj, hne⟩
    · rw [if_neg hcond] at ht
      have ht2 := mem_dedupTriples _ t ht
      rcases List.mem_append.mp ht2 with h3 | h3
      · have h10 := conf_of_mem_svo _ _ _ h3
        rw [hconf] at h10
        cases h10
      · have h7 := conf_of_mem_prep _ _ _ h3
        rw [hconf] at h7
        cases h7
  · rintro ⟨hbase, hlen, i, j, hij, hj, hne⟩
    rw [sentence_output_eq, if_pos ⟨hbase, hlen⟩, hbase]
    have hmem := cooc_mem_intro (extract_entities_from_sentence (nlp sentence)) i j hij hj
      (by simpa [entTexts] using hne)
    have hnonempty :
        extract_cooccurrence_triples (extract_entities_from_sentence (nlp sentence)) ≠ [] := by
      intro hc
      rw [hc] at hmem
      simp at hmem
    have hdne := dedupTriples_ne_nil _ (by simpa using hnonempty :
      ([] ++ extract_cooccurrence_triples (extract_entities_from_sentence (nlp sentence))) ≠ [])
    obtain ⟨t, ht⟩ := List.exists_mem_of_ne_nil _ hdne
    have htc : t ∈ extract_cooccurrence_triples
        (extract_entities_from_sentence (nlp sentence)) := by
      have := mem_dedupTriples _ t ht
      simpa using this
    obtain ⟨i2, j2, _, _, _, htEq⟩ :=
      mem_cooc_elim (extract_entities_from_sentence (nlp sentence)) t htc
    refine ⟨t, ht, ?_, ?_⟩
    · rw [htEq]
    · rw [htEq]

/-- Concrete instantiation of `C4_fallback_gating_amended`: for the sentence
annotated with two non-verb tokens and the two distinct-text entity spans
paris and rome, the fallback fires and a (related_to, 0.4) triple is present
in the output. -/
def docC4W : Doc :=
  Doc.mk
    [Token.mk 0 0 "Paris" "paris" "PROPN" "compound" 1,
     Token.mk 1 6 "Rome" "rome" "PROPN" "ROOT" 1]
    [RawSpan.mk "Paris" 0 5, RawSpan.mk "Rome" 6 10]
    [] "Paris Rome"

/-- The annotator producing `docC4W`. -/
def nlpC4W : String → Doc := fun _ => docC4W

/-- Witness for `C4_fallback_gating_amended` at a concrete sentence. -/
theorem C4_fallback_gating_amended_witness :
    ∃ t ∈ (extract_triples_from_sentence nlpC4W "Paris Rome").1,
      t.rel = "related_to" ∧ t.conf = 4 :=
  (C4_fallback_gating_amended nlpC4W "Paris Rome").1.mpr
    ⟨by decide, by decide, 0, 1, by decide, by decide, by decide⟩


/-- Spec-side restatement of the SVO emission actually performed by the
source: for a VERB token, the loop's overwriting of `subj` and `dobj` keeps
the last subject-labelled child and the last object-labelled child; one
triple is emitted when both resolve to non-empty text. -/
def svoLastSpec (doc : Doc) (ents : List EntitySpan) : List Triple :=
  doc.tokens.flatMap (fun token =>
    if token.pos == "VERB" then
      match (((childrenOf doc token).filter
            (fun c => c.dep == "nsubj" || c.dep == "nsubjpass")).getLast?).map
              (resolveToken ents),
          (((childrenOf doc token).filter
            (fun c => c.dep == "dobj" || c.dep == "obj")).getLast?).map
              (resolveToken ents) with
      | some s, some d =>
        if s ≠ "" ∧ d ≠ "" then
          [Triple.mk (normalize_entity s) (pyLower token.lemma_) (normalize_entity d) 10]
        else []
      | _, _ => []
    else [])

/-- Annotated sentence refuting C1 as stated: the verb `saw` has two subject
children (Alice, Bob) and two object children (Carol, Dave); the claimed
cross product would emit four triples, among them (alice, see, carol). -/
def docC1 : Doc :=
  Doc.mk
    [Token.mk 0 0 "Alice" "alice" "PROPN" "nsubj" 2,
     Token.mk 1 6 "Bob" "bob" "PROPN" "nsubj" 2,
     Token.mk 2 10 "saw" "see" "VERB" "ROOT" 2,
     Token.mk 3 14 "Carol" "carol" "PROPN" "dobj" 2,
     Token.mk 4 20 "Dave" "dave" "PROPN" "dobj" 2]
    [] [] "Alice Bob saw Carol Dave"

/-- C1 as stated fails on `docC1`: the verb token has a subject child
resolving to Alice and an object child resolving to Carol, yet the SVO
extractor emits only the single triple built from the last subject child and
the last object child, and the cross-product triple (alice, see, carol) is
absent. -/
theorem C1_counterexample :
    (∃ c ∈ childrenOf docC1 (Token.mk 2 10 "saw" "see" "VERB" "ROOT" 2),
        c.dep = "nsubj" ∧ resolveToken (extract_entities_from_sentence docC1) c = "Alice") ∧
    (∃ c ∈ childrenOf docC1 (Token.mk 2 10 "saw" "see" "VERB" "ROOT" 2),
        c.dep = "dobj" ∧ resolveToken (extract_entities_from_sentence docC1) c = "Carol") ∧
    extract_svo_triples docC1 (extract_entities_from_sentence docC1)
      = [Triple.mk "bob" "see" "dave" 10] ∧
    Triple.mk "alice" "see" "carol" 10
      ∉ extract_svo_triples docC1 (extract_entities_from_sentence docC1) := by
  decide

/-- C1 (amended): for every token with coarse POS VERB, the SVO extractor
emits one triple per verb, not one per (subject-child, object-child) pair:
the subject is the resolution of the LAST child carrying nsubj/nsubjpass and
the object the resolution of the LAST child carrying dobj/obj (each
overwrites earlier matches), the triple appearing only when both resolved
texts are non-empty, with subject/object normalized, relation the verb's
lowercased lemma and confidence 1.0. -/
theorem C1_svo_last_pair (doc : Doc) (ents : List EntitySpan) :
    extract_svo_triples doc ents = svoLastSpec doc ents := by
  unfold extract_svo_triples svoLastSpec
  refine congrArg List.flatten (List.map_congr_left (fun tok _ => ?_))
  rw [foldl_overwrite (fun child => child.dep == "nsubj" || child.dep == "nsubjpass")
      (resolveToken ents) (childrenOf doc tok) none,
    foldl_overwrite (fun child => child.dep == "dobj" || child.dep == "obj")
      (resolveToken ents) (childrenOf doc tok) none]
  cases ((childrenOf doc tok).filter
      (fun c => c.dep == "nsubj" || c.dep == "nsubjpass")).getLast? with
  | none =>
    cases ((childrenOf doc tok).filter
        (fun c => c.dep == "dobj" || c.dep == "obj")).getLast? with
    | none => rfl
    | some d => rfl
  | some s =>
    cases ((childrenOf doc tok).filter
        (fun c => c.dep == "dobj" || c.dep == "obj")).getLast? with
    | none => rfl
    | some d => rfl


/-- Spec-side filter for noun chunks: keep a chunk exactly when its
normalized text differs from everything in `prior` (the named-entity texts
plus the texts of all earlier noun chunks, included or not). -/
def chunkKeep (prior : List String) : List RawSpan → List EntitySpan
  | [] => []
  | nc :: rest =>
    let txt := normalize_entity nc.text
    if txt ∈ prior then chunkKeep (prior ++ [txt]) rest
    else EntitySpan.mk txt nc.start_char nc.end_char Method.NOUN_CHUNK
      :: chunkKeep (prior ++ [txt]) rest

/-- Spec-side restatement of the entity span detector: all NER spans first,
then the noun chunks whose normalized text matches neither a named-entity
span's text nor an earlier noun chunk's text. -/
def entitiesSpec (doc : Doc) : List EntitySpan :=
  let ner := doc.ents.map
    (fun e => EntitySpan.mk (normalize_entity e.text) e.start_char e.end_char Method.NER)
  ner ++ chunkKeep (ner.map (fun e => e.text)) doc.noun_chunks

theorem foldl_chunk_eq_chunkKeep (chunks : List RawSpan) :
    ∀ (acc : List EntitySpan) (prior : List String),
      (∀ x, (∃ e ∈ acc, x = e.text) ↔ x ∈ prior) →
      chunks.foldl
        (fun ents nc =>
          let txt := normalize_entity nc.text
          if ents.any (fun e => txt == e.text) then ents
          else ents ++ [EntitySpan.mk txt nc.start_char nc.end_char Method.NOUN_CHUNK])
        acc
      = acc ++ chunkKeep prior chunks := by
  induction chunks with
  | nil =>
    intro acc prior _
    simp [chunkKeep]
  | cons nc rest ih =>
    intro acc prior hinv
    simp only [List.foldl_cons, chunkKeep]
    by_cases hmem : normalize_entity nc.text ∈ prior
    · have hany : acc.any (fun e => normalize_entity nc.text == e.text) = true := by
        rcases (hinv (normalize_entity nc.text)).mpr hmem with ⟨e, he, hx⟩
        exact List.any_eq_true.mpr ⟨e, he, by simpa using hx⟩
      rw [if_pos hany, if_pos hmem]
      apply ih acc (prior ++ [normalize_entity nc.text])
      intro x
      rw [hinv x]
      constructor
      · intro hx
        exact List.mem_append.mpr (Or.inl hx)
      · intro hx
        rcases List.mem_append.mp hx with h1 | h1
        · exact h1
        · rw [List.mem_singleton] at h1
          rw [h1]
          exact hmem
    · have hany : acc.any (fun e => normalize_entity nc.text == e.text) = false := by
        rw [List.any_eq_false]
        intro e he
        simp only [beq_iff_eq]
        intro hx
        exact hmem ((hinv (normalize_entity nc.text)).mp ⟨e, he, hx⟩)
      rw [if_neg (by rw [hany]; simp), if_neg hmem]
      rw [ih (acc ++ [EntitySpan.mk (normalize_entity nc.text) nc.start_char nc.end_char
          Method.NOUN_CHUNK]) (prior ++ [normalize_entity nc.text]) ?_]
      · rw [List.append_assoc]
        rfl
      · intro x
        constructor
        · rintro ⟨e, he, hx⟩
          rcases List.mem_append.mp he with h1 | h1
          · exact List.mem_append.mpr (Or.inl ((hinv x).mp ⟨e, h1, hx⟩))
          · rw [List.mem_singleton] at h1
            subst h1
            exact List.mem_append.mpr (Or.inr (by simpa using hx))
        · intro hx
          rcases List.mem_append.mp hx with h1 | h1
          · rcases (hinv x).mpr h1 with ⟨e, he, hxe⟩
            exact ⟨e, List.mem_append.mpr (Or.inl he), hxe⟩
          · rw [List.mem_singleton] at h1
            exact ⟨EntitySpan.mk (normalize_entity nc.text) nc.start_char nc.end_char
              Method.NOUN_CHUNK, List.mem_append.mpr (Or.inr (by simp)), h1⟩

theorem chunkKeep_text_not_mem_prior (chunks : List RawSpan) :
    ∀ (prior : List String) (e : EntitySpan), e ∈ chunkKeep prior chunks →
      e.text ∉ prior := by
  induction chunks with
  | nil =>
    intro prior e he
    simp [chunkKeep] at he
  | cons nc rest ih =>
    intro prior e he
    simp only [chunkKeep] at he
    by_cases hmem : normalize_entity nc.text ∈ prior
    · rw [if_pos hmem] at he
      intro hcon
      exact ih (prior ++ [normalize_entity nc.text]) e he
        (List.mem_append.mpr (Or.inl hcon))
    · rw [if_neg hmem] at he
      rcases List.mem_cons.mp he with h1 | h1
      · subst h1
        exact hmem
      · intro hcon
        exact ih (prior ++ [normalize_entity nc.text]) e h1
          (List.mem_append.mpr (Or.inl hcon))


/-- Annotated sentence refuting C5 as stated: no named entities and two noun
chunks that both normalize to `the dog`. -/
def docC5 : Doc :=
  Doc.mk
    [Token.mk 0 0 "The" "the" "DET" "det" 1,
     Token.mk 1 4 "dog" "dog" "NOUN" "nsubj" 2,
     Token.mk 2 8 "saw" "see" "VERB" "ROOT" 2,
     Token.mk 3 12 "the" "the" "DET" "det" 4,
     Token.mk 4 16 "dog" "dog" "NOUN" "dobj" 2]
    []
    [RawSpan.mk "The dog" 0 7, RawSpan.mk "the dog" 12 19]
    "The dog saw the dog"

/-- C5 as stated fails on `docC5`: the second noun-chunk span's normalized
text equals no named-entity span's text (there are none), so the claimed iff
would put it in the output; the detector emits only the first occurrence. -/
theorem C5_counterexample :
    docC5.ents = [] ∧
    docC5.noun_chunks.length = 2 ∧
    (∀ nc ∈ docC5.noun_chunks, ∀ e ∈ docC5.ents,
      normalize_entity nc.text ≠ normalize_entity e.text) ∧
    extract_entities_from_sentence docC5
      = [EntitySpan.mk "the dog" 0 7 Method.NOUN_CHUNK] := by
  decide

/-- C5 (amended): the detector outputs all named-entity spans first, then
exactly those noun-chunk spans whose normalized text differs from every
named-entity span's text AND from every earlier noun chunk's text (the
counterexample forces the second condition); in particular a noun-chunk span
whose text equals a named-entity span's text never appears. -/
theorem C5_span_dedup_amended (doc : Doc) :
    extract_entities_from_sentence doc = entitiesSpec doc ∧
    ∀ e ∈ extract_entities_from_sentence doc, e.method = Method.NOUN_CHUNK →
      ∀ r ∈ doc.ents, e.text ≠ normalize_entity r.text := by
  have heq : extract_entities_from_sentence doc = entitiesSpec doc := by
    unfold extract_entities_from_sentence entitiesSpec
    refine foldl_chunk_eq_chunkKeep doc.noun_chunks _ _ ?_
    intro x
    constructor
    · rintro ⟨e, he, hx⟩
      exact List.mem_map.mpr ⟨e, he, hx.symm⟩
    · intro hx
      rcases List.mem_map.mp hx with ⟨e, he, hxe⟩
      exact ⟨e, he, hxe.symm⟩
  refine ⟨heq, ?_⟩
  intro e he hm r hr
  rw [heq] at he
  unfold entitiesSpec at he
  simp only [] at he
  rcases List.mem_append.mp he with h1 | h1
  · rcases List.mem_map.mp h1 with ⟨r2, _, hr2⟩
    rw [← hr2] at hm
    cases hm
  · have hnp := chunkKeep_text_not_mem_prior doc.noun_chunks _ e h1
    intro hcon
    apply hnp
    apply List.mem_map.mpr
    refine ⟨EntitySpan.mk (normalize_entity r.text) r.start_char r.end_char Method.NER,
      List.mem_map.mpr ⟨r, hr, rfl⟩, ?_⟩
    exact hcon.symm

/-- Witness for `C5_span_dedup_amended` at a concrete annotated sentence with
one named entity and two noun chunks (one suppressed by the NER text, one
kept): the detector output equals the spec-side characterization. -/
def docC5W : Doc :=
  Doc.mk
    [Token.mk 0 0 "Rex" "rex" "PROPN" "nsubj" 1,
     Token.mk 1 4 "barks" "bark" "VERB" "ROOT" 1]
    [RawSpan.mk "Rex" 0 3]
    [RawSpan.mk "Rex" 0 3, RawSpan.mk "loud noise" 10 20]
    "Rex barks"

/-- Concrete instantiation of `C5_span_dedup_amended` on `docC5W`. -/
theorem C5_span_dedup_amended_witness :
    extract_entities_from_sentence docC5W = entitiesSpec docC5W ∧
    extract_entities_from_sentence docC5W
      = [EntitySpan.mk "rex" 0 3 Method.NER,
         EntitySpan.mk "loud noise" 10 20 Method.NOUN_CHUNK] :=
  ⟨(C5_span_dedup_amended docC5W).1, by decide⟩


/-- A trivial annotator for runs whose claims do not depend on parses. -/
def nlpTrivial : String → Doc := fun s => Doc.mk [] [] [] s

/-- C6 as stated fails: with the unreadable `a.txt` listed first, the run
aborts with the propagated error and the readable `b.txt` is never
processed, although `b.txt` alone loads fine. -/
theorem C6_counterexample :
    extract_kg_from_processed nlpTrivial [("a.txt", none), ("b.txt", some ["Hello"])]
      = Except.error () ∧
    load_processed_texts [("a.txt", none), ("b.txt", some ["Hello"])]
      = Except.error () ∧
    load_processed_texts [("b.txt", some ["Hello"])]
      = Except.ok [("b.txt", ["Hello"])] :=
  ⟨rfl, rfl, rfl⟩

theorem mem_insertByName (x y : FSEntry) (l : List FSEntry) :
    y ∈ insertByName x l ↔ y = x ∨ y ∈ l := by
  induction l with
  | nil => simp [insertByName]
  | cons z zs ih =>
    unfold insertByName
    by_cases hle : strLeB x.1.data z.1.data
    · rw [if_pos hle]
      simp only [List.mem_cons]
      try tauto
    · rw [if_neg hle]
      simp only [List.mem_cons, ih]
      try tauto

theorem mem_sortByName (x : FSEntry) (l : List FSEntry) :
    x ∈ sortByName l ↔ x ∈ l := by
  induction l with
  | nil => simp [sortByName]
  | cons z zs ih =>
    unfold sortByName
    simp only [List.foldr_cons]
    rw [mem_insertByName]
    unfold sortByName at ih
    rw [ih]
    simp

theorem loadAux_error_iff (l : List FSEntry) :
    loadAux l = Except.error () ↔ ∃ p ∈ l, isTxtName p.1 = true ∧ p.2 = none := by
  induction l with
  | nil =>
    simp [loadAux]
  | cons q rest ih =>
    obtain ⟨fname, content⟩ := q
    by_cases htxt : isTxtName fname = true
    · cases content with
      | none =>
        constructor
        · intro _
          exact ⟨(fname, none), List.mem_cons_self _ _, htxt, rfl⟩
        · intro _
          simp only [loadAux, if_pos htxt]
      | some lines =>
        have hunf : loadAux ((fname, some lines) :: rest)
            = (let stripped := (lines.map pyStrip).filter (fun s => s ≠ "")
              match loadAux rest with
              | Except.error e => Except.error e
              | Except.ok d =>
                Except.ok (if stripped = [] then d else (fname, stripped) :: d)) := by
          simp only [loadAux, if_pos htxt]
        rw [hunf]
        simp only []
        cases hrest : loadAux rest with
        | error e =>
          cases e
          constructor
          · intro _
            obtain ⟨p, hp, h1, h2⟩ := ih.mp hrest
            exact ⟨p, List.mem_cons_of_mem _ hp, h1, h2⟩
          · intro _
            rfl
        | ok d =>
          simp only []
          constructor
          · intro hcon
            split at hcon <;> cases hcon
          · rintro ⟨p, hp, h1, h2⟩
            rcases List.mem_cons.mp hp with h3 | h3
            · rw [h3] at h2
              cases h2
            · have : loadAux rest = Except.error () := ih.mpr ⟨p, h3, h1, h2⟩
              rw [this] at hrest
              cases hrest
    · have hunf : loadAux ((fname, content) :: rest) = loadAux rest := by
        simp only [loadAux, if_neg htxt]
      rw [hunf, ih]
      constructor
      · rintro ⟨p, hp, h1, h2⟩
        exact ⟨p, List.mem_cons_of_mem _ hp, h1, h2⟩
      · rintro ⟨p, hp, h1, h2⟩
        rcases List.mem_cons.mp hp with h3 | h3
        · rw [h3] at h1
          exact absurd h1 (by simpa using htxt)
        · exact ⟨p, h3, h1, h2⟩

theorem load_error_iff (folder : List FSEntry) :
    load_processed_texts folder = Except.error ()
      ↔ ∃ p ∈ folder, isTxtName p.1 = true ∧ p.2 = none := by
  unfold load_processed_texts
  rw [loadAux_error_iff]
  constructor
  · rintro ⟨p, hp, h1, h2⟩
    exact ⟨p, (mem_sortByName p folder).mp hp, h1, h2⟩
  · rintro ⟨p, hp, h1, h2⟩
    exact ⟨p, (mem_sortByName p folder).mpr hp, h1, h2⟩

/-- C6 (amended): a missing or unreadable `.txt` file is not skipped — the
exception propagates and the whole corpus run aborts, processing none of the
remaining files; conversely this is the only way the run fails. Only
filenames not ending in `.txt` are skipped. -/
theorem C6_unreadable_file_aborts (nlp : String → Doc) (folder : List FSEntry) :
    extract_kg_from_processed nlp folder = Except.error ()
      ↔ ∃ p ∈ folder, isTxtName p.1 = true ∧ p.2 = none := by
  cases hl : load_processed_texts folder with
  | error e =>
    cases e
    rw [extract_kg_of_error nlp folder hl]
    simp only [true_iff]
    exact (load_error_iff folder).mp hl
  | ok data =>
    rw [extract_kg_of_ok nlp folder data hl]
    constructor
    · intro hcon
      cases hcon
    · intro hex
      have := (load_error_iff folder).mpr hex
      rw [this] at hl
      cases hl
/-- Concrete instantiation of `C6_unreadable_file_aborts`: one unreadable
`.txt` file makes the whole run abort. -/
theorem C6_unreadable_file_aborts_witness :
    extract_kg_from_processed nlpTrivial [("notes.txt", none)] = Except.error () :=
  (C6_unreadable_file_aborts nlpTrivial [("notes.txt", none)]).mpr
    ⟨("notes.txt", none), by decide, by decide, rfl⟩


/-- C7: when the whole corpus yields an empty record list, the run still
succeeds: the empty-corpus warning is emitted, the tabular (CSV) export is
skipped, the GML graph export still runs, and the exported graph is empty. -/
theorem C7_empty_corpus_warns_skips_csv (nlp : String → Doc) (folder : List FSEntry)
    (res : KGResult) (hok : extract_kg_from_processed nlp folder = Except.ok res)
    (hempty : res.all_triples = []) :
    res.warned = true ∧ res.csvWritten = false ∧ res.gmlWritten = true ∧
    res.graph = Graph.mk [] [] := by
  obtain ⟨data, _, hres⟩ := extract_kg_ok_inv nlp folder res hok
  subst hres
  simp only [] at hempty
  rw [hempty]
  exact ⟨rfl, rfl, rfl, rfl⟩

/-- Concrete instantiation of `C7_empty_corpus_warns_skips_csv` on an empty
folder: the run returns successfully with a warning, no CSV, and an empty
exported graph. -/
theorem C7_empty_corpus_warns_skips_csv_witness :
    (KGResult.mk [] false true (Graph.mk [] []) true).warned = true ∧
    (KGResult.mk [] false true (Graph.mk [] []) true).csvWritten = false ∧
    (KGResult.mk [] false true (Graph.mk [] []) true).gmlWritten = true ∧
    (KGResult.mk [] false true (Graph.mk [] []) true).graph = Graph.mk [] [] :=
  C7_empty_corpus_warns_skips_csv nlpTrivial []
    (KGResult.mk [] false true (Graph.mk [] []) true) rfl rfl

/-- C8: extraction, deduplication and consolidation are deterministic — the
embedding of the whole pipeline is a pure function of the annotator and the
input (the source's only iteration orders are Python's insertion-ordered
dicts and lists), so two runs over equal inputs produce identical triple
lists, identical record sequences and identical node/edge sets with
identical relation and confidence attributes. -/
theorem C8_determinism (nlp : String → Doc) (folder1 folder2 : List FSEntry)
    (sent1 sent2 : String) (h1 : folder1 = folder2) (h2 : sent1 = sent2) :
    extract_kg_from_processed nlp folder1 = extract_kg_from_processed nlp folder2 ∧
    extract_triples_from_sentence nlp sent1 = extract_triples_from_sentence nlp sent2 := by
  subst h1
  subst h2
  exact ⟨rfl, rfl⟩

/-- Concrete instantiation of `C8_determinism`: two runs over the same
one-file folder and the same sentence coincide. -/
theorem C8_determinism_witness :
    extract_kg_from_processed nlpTrivial [("a.txt", some ["x y"])]
      = extract_kg_from_processed nlpTrivial [("a.txt", some ["x y"])] ∧
    extract_triples_from_sentence nlpTrivial "x y"
      = extract_triples_from_sentence nlpTrivial "x y" :=
  C8_determinism nlpTrivial [("a.txt", some ["x y"])] [("a.txt", some ["x y"])]
    "x y" "x y" rfl rfl


theorem strLeB_nil_left (b : List Char) : strLeB [] b = true := rfl

theorem strLeB_cons (x y : Char) (xs ys : List Char) :
    strLeB (x :: xs) (y :: ys)
      = if x.toNat < y.toNat then true
        else if y.toNat < x.toNat then false
        else strLeB xs ys := rfl

theorem strLeB_total (a b : List Char) : strLeB a b = true ∨ strLeB b a = true := by
  induction a generalizing b with
  | nil =>
    left
    rfl
  | cons x xs ih =>
    cases b with
    | nil =>
      right
      rfl
    | cons y ys =>
      rw [strLeB_cons, strLeB_cons]
      by_cases hxy : x.toNat < y.toNat
      · left
        rw [if_pos hxy]
      · by_cases hyx : y.toNat < x.toNat
        · right
          rw [if_pos hyx]
        · rw [if_neg hxy, if_neg hyx, if_neg hyx, if_neg hxy]
          exact ih ys

theorem strLeB_trans (a b c : List Char) (hab : strLeB a b = true)
    (hbc : strLeB b c = true) : strLeB a c = true := by
  induction a generalizing b c with
  | nil => rfl
  | cons x xs ih =>
    cases b with
    | nil => cases hab
    | cons y ys =>
      cases c with
      | nil => cases hbc
      | cons z zs =>
        rw [strLeB_cons] at hab hbc ⊢
        by_cases hxy : x.toNat < y.toNat
        · by_cases hyz : y.toNat < z.toNat
          · rw [if_pos (by omega : x.toNat < z.toNat)]
          · by_cases hzy : z.toNat < y.toNat
            · rw [if_neg hyz, if_pos hzy] at hbc
              cases hbc
            · rw [if_pos (by omega : x.toNat < z.toNat)]
        · by_cases hyx : y.toNat < x.toNat
          · rw [if_neg hxy, if_pos hyx] at hab
            cases hab
          · rw [if_neg hxy, if_neg hyx] at hab
            by_cases hyz : y.toNat < z.toNat
            · rw [if_pos (by omega : x.toNat < z.toNat)]
            · by_cases hzy : z.toNat < y.toNat
              · rw [if_neg hyz, if_pos hzy] at hbc
                cases hbc
              · rw [if_neg hyz, if_neg hzy] at hbc
                rw [if_neg (by omega : ¬ x.toNat < z.toNat),
                  if_neg (by omega : ¬ z.toNat < x.toNat)]
                exact ih ys zs hab hbc

theorem pairwise_insertByName (x : FSEntry) (l : List FSEntry)
    (h : List.Pairwise (fun a b : FSEntry => strLeB a.1.data b.1.data = true) l) :
    List.Pairwise (fun a b : FSEntry => strLeB a.1.data b.1.data = true)
      (insertByName x l) := by
  induction l with
  | nil => simp [insertByName]
  | cons y ys ih =>
    rcases List.pairwise_cons.mp h with ⟨hy, hys⟩
    unfold insertByName
    by_cases hle : strLeB x.1.data y.1.data = true
    · rw [if_pos hle]
      refine List.pairwise_cons.mpr ⟨?_, h⟩
      intro b hb
      rcases List.mem_cons.mp hb with h1 | h1
      · rw [h1]
        exact hle
      · exact strLeB_trans _ _ _ hle (hy b h1)
    · rw [if_neg hle]
      refine List.pairwise_cons.mpr ⟨?_, ih hys⟩
      intro b hb
      rcases (mem_insertByName x b ys).mp hb with h1 | h1
      · rcases strLeB_total x.1.data y.1.data with h2 | h2
        · exact absurd h2 hle
        · rw [h1]
          exact h2
      · exact hy b h1

theorem pairwise_sortByName (l : List FSEntry) :
    List.Pairwise (fun a b : FSEntry => strLeB a.1.data b.1.data = true)
      (sortByName l) := by
  induction l with
  | nil => simp [sortByName]
  | cons x xs ih =>
    unfold sortByName
    simp only [List.foldr_cons]
    exact pairwise_insertByName x _ ih

theorem pairwise_filterMap_of {β γ : Type} (R : β → β → Prop) (S : γ → γ → Prop)
    (f : β → Option γ)
    (hf : ∀ a b x y, f a = some x → f b = some y → R a b → S x y) :
    ∀ l : List β, List.Pairwise R l → List.Pairwise S (l.filterMap f) := by
  intro l
  induction l with
  | nil =>
    intro
    simp
  | cons a as ih =>
    intro h
    rcases List.pairwise_cons.mp h with ⟨ha, has⟩
    rw [List.filterMap_cons]
    cases hfa : f a with
    | none => exact ih has
    | some x =>
      refine List.pairwise_cons.mpr ⟨?_, ih has⟩
      intro y hy
      rcases List.mem_filterMap.mp hy with ⟨b, hb, hfb⟩
      exact hf a b x y hfa hfb (ha b hb)


/-- Spec-side fate of one directory entry in `load_processed_texts`: kept
with its stripped non-blank lines when its lowercased name ends in `.txt`,
it is readable and at least one line survives; dropped otherwise. -/
def loadSpecFn (p : FSEntry) : Option (String × List String) :=
  if isTxtName p.1 then
    match p.2 with
    | some lines =>
      let ls := (lines.map pyStrip).filter (fun l => l ≠ "")
      if ls = [] then none else some (p.1, ls)
    | none => none
  else none

/-- Spec-side restatement of `load_processed_texts` on a fully readable
folder: the sorted listing, filtered and cleaned entry-wise. -/
def loadSpec (folder : List FSEntry) : List (String × List String) :=
  (sortByName folder).filterMap loadSpecFn

theorem loadAux_eq_spec (l : List FSEntry)
    (h : ∀ p ∈ l, isTxtName p.1 = true → p.2 ≠ none) :
    loadAux l = Except.ok (l.filterMap loadSpecFn) := by
  induction l with
  | nil => rfl
  | cons q rest ih =>
    obtain ⟨fname, content⟩ := q
    have hrest : loadAux rest = Except.ok (rest.filterMap loadSpecFn) :=
      ih (fun p hp => h p (List.mem_cons_of_mem _ hp))
    by_cases htxt : isTxtName fname = true
    · cases content with
      | none => exact absurd rfl (h (fname, none) (List.mem_cons_self _ _) htxt)
      | some lines =>
        rw [List.filterMap_cons]
        have hfn : loadSpecFn (fname, some lines)
            = (if ((lines.map pyStrip).filter (fun l => l ≠ "")) = []
               then none
               else some (fname, (lines.map pyStrip).filter (fun l => l ≠ ""))) := by
          simp only [loadSpecFn, if_pos htxt]
        by_cases hempty : ((lines.map pyStrip).filter (fun l => l ≠ "")) = []
        · rw [hfn, if_pos hempty]
          simp only [loadAux, if_pos htxt]
          rw [hrest]
          simp only []
          rw [if_pos hempty]
        · rw [hfn, if_neg hempty]
          simp only [loadAux, if_pos htxt]
          rw [hrest]
          simp only []
          rw [if_neg hempty]
    · have hskip : loadAux ((fname, content) :: rest) = loadAux rest := by
        simp only [loadAux, if_neg htxt]
      rw [hskip, hrest, List.filterMap_cons]
      have hfn : loadSpecFn (fname, content) = none := by
        simp only [loadSpecFn, if_neg htxt]
      rw [hfn]

theorem load_eq_loadSpec (folder : List FSEntry)
    (h : ∀ p ∈ folder, isTxtName p.1 = true → p.2 ≠ none) :
    load_processed_texts folder = Except.ok (loadSpec folder) := by
  unfold load_processed_texts loadSpec
  exact loadAux_eq_spec _ (fun p hp => h p ((mem_sortByName p folder).mp hp))

theorem loadSpec_props (folder : List FSEntry) (p : String × List String)
    (hp : p ∈ loadSpec folder) :
    isTxtName p.1 = true ∧ p.2 ≠ [] ∧ ∀ l2 ∈ p.2, l2 ≠ "" := by
  unfold loadSpec at hp
  rcases List.mem_filterMap.mp hp with ⟨q, _, hq⟩
  unfold loadSpecFn at hq
  by_cases htxt : isTxtName q.1 = true
  · rw [if_pos htxt] at hq
    cases hcq : q.2 with
    | none =>
      rw [hcq] at hq
      cases hq
    | some lines =>
      rw [hcq] at hq
      simp only [] at hq
      by_cases hempty : ((lines.map pyStrip).filter (fun l2 => l2 ≠ "")) = []
      · rw [if_pos hempty] at hq
        cases hq
      · rw [if_neg hempty] at hq
        have hpq : p = (q.1, (lines.map pyStrip).filter (fun l2 => l2 ≠ "")) :=
          (Option.some_inj.mp hq).symm
        rw [hpq]
        refine ⟨htxt, hempty, ?_⟩
        intro l2 hl2
        have := List.mem_filter.mp hl2
        simpa using this.2
  · rw [if_neg htxt] at hq
    cases hq

/-- C10: on a folder whose `.txt` files are all readable, the corpus run
loads exactly the name-sorted listing restricted to (case-insensitive)
`.txt` files, with every line stripped, blank lines dropped and files with
no surviving lines dropped; the loaded files appear in lexicographic
filename order; and the run's record list is the per-file, per-sentence
concatenation `recordsOf` over that data — one record per surviving triple
per sentence, with no deduplication across sentences or files. -/
theorem C10_corpus_aggregation (nlp : String → Doc) (folder : List FSEntry)
    (hread : ∀ p ∈ folder, isTxtName p.1 = true → p.2 ≠ none) :
    load_processed_texts folder = Except.ok (loadSpec folder) ∧
    List.Pairwise (fun a b => strLeB a.1.data b.1.data = true) (loadSpec folder) ∧
    (∀ p ∈ loadSpec folder, isTxtName p.1 = true ∧ p.2 ≠ [] ∧ ∀ l2 ∈ p.2, l2 ≠ "") ∧
    extract_kg_from_processed nlp folder
      = Except.ok (KGResult.mk (recordsOf nlp (loadSpec folder))
          (!(recordsOf nlp (loadSpec folder)).isEmpty)
          (recordsOf nlp (loadSpec folder)).isEmpty
          (buildGraph (recordsOf nlp (loadSpec folder))) true) := by
  refine ⟨load_eq_loadSpec folder hread, ?_, loadSpec_props folder, ?_⟩
  · unfold loadSpec
    refine pairwise_filterMap_of
      (fun a b : FSEntry => strLeB a.1.data b.1.data = true)
      (fun a b => strLeB a.1.data b.1.data = true) loadSpecFn ?_ _
      (pairwise_sortByName folder)
    intro a b x y hfa hfb hab
    have hax : x.1 = a.1 := by
      unfold loadSpecFn at hfa
      by_cases htxt : isTxtName a.1 = true
      · rw [if_pos htxt] at hfa
        cases hca : a.2 with
        | none =>
          rw [hca] at hfa
          cases hfa
        | some lines =>
          rw [hca] at hfa
          simp only [] at hfa
          by_cases hempty : ((lines.map pyStrip).filter (fun l2 => l2 ≠ "")) = []
          · rw [if_pos hempty] at hfa
            cases hfa
          · rw [if_neg hempty] at hfa
            rw [← Option.some_inj.mp hfa]
      · rw [if_neg htxt] at hfa
        cases hfa
    have hby : y.1 = b.1 := by
      unfold loadSpecFn at hfb
      by_cases htxt : isTxtName b.1 = true
      · rw [if_pos htxt] at hfb
        cases hcb : b.2 with
        | none =>
          rw [hcb] at hfb
          cases hfb
        | some lines =>
          rw [hcb] at hfb
          simp only [] at hfb
          by_cases hempty : ((lines.map pyStrip).filter (fun l2 => l2 ≠ "")) = []
          · rw [if_pos hempty] at hfb
            cases hfb
          · rw [if_neg hempty] at hfb
            rw [← Option.some_inj.mp hfb]
      · rw [if_neg htxt] at hfb
        cases hfb
    rw [hax, hby]
    exact hab
  · exact extract_kg_of_ok nlp folder (loadSpec folder) (load_eq_loadSpec folder hread)

/-- Concrete instantiation of `C10_corpus_aggregation`: a folder listed out
of order with a non-txt file, a file of blank lines, and two text files,
loads as the sorted cleaned listing. -/
theorem C10_corpus_aggregation_witness :
    load_processed_texts
        [("b.txt", some [" two ", "  "]), ("notes.md", some ["x"]),
         ("a.txt", some ["one"]), ("empty.txt", some ["", "   "])]
      = Except.ok (loadSpec
        [("b.txt", some [" two ", "  "]), ("notes.md", some ["x"]),
         ("a.txt", some ["one"]), ("empty.txt", some ["", "   "])]) ∧
    loadSpec
        [("b.txt", some [" two ", "  "]), ("notes.md", some ["x"]),
         ("a.txt", some ["one"]), ("empty.txt", some ["", "   "])]
      = [("a.txt", ["one"]), ("b.txt", ["two"])] :=
  ⟨(C10_corpus_aggregation nlpTrivial
      [("b.txt", some [" two ", "  "]), ("notes.md", some ["x"]),
       ("a.txt", some ["one"]), ("empty.txt", some ["", "   "])]
      (by decide)).1,
   by decide⟩

end KG
